import Mathlib

/-!
Verification development for the html5tag repository: a shallow embedding in
Lean 4 of the attribute/style data model and the tag-writing pipeline, with
theorems settling the specification's claims.

Go strings are modelled as lists of characters (`GoStr`); all inputs the
theorems exercise are ASCII, where character count and byte count coincide.
Go's `panic` is modelled as `Option.none` on the functions that can reach one.
-/

/-! ## Go string primitives -/

abbrev GoStr := List Char

/-- Shorthand to inject a Lean string literal into the `GoStr` model. -/
def gs (s : String) : GoStr := s.toList

/-- ASCII whitespace, as `unicode.IsSpace` classifies it on the ASCII range
(the inputs in this development are ASCII). -/
def goIsSpace (c : Char) : Bool :=
  c = ' ' || c = '\t' || c = '\n' || c = '\x0b' || c = '\x0c' || c = '\r'

/-- Go `strings.TrimSpace`: drop leading and trailing whitespace. -/
def trimSpace (s : GoStr) : GoStr :=
  ((s.dropWhile goIsSpace).reverse.dropWhile goIsSpace).reverse

/-- Go `strings.Split` with a single-character separator: `n` separators give
`n + 1` fields, empty fields included. -/
def goSplit (sep : Char) (s : GoStr) : List GoStr := s.splitOn sep

/-- Go `strings.HasPrefix`. -/
def hasPre (p s : GoStr) : Bool := p.isPrefixOf s

/-- Go `strings.Index`: position of the first occurrence of `pat`, `none` for
Go's `-1`. -/
def strIndex (pat : GoStr) : GoStr → Option Nat
  | [] => if pat.isPrefixOf ([] : GoStr) then some 0 else none
  | c :: rest =>
    if pat.isPrefixOf (c :: rest) then some 0
    else (strIndex pat rest).map (· + 1)

/-- Go `strings.Fields`: the maximal runs of non-whitespace characters. -/
def goFields (s : GoStr) : List GoStr :=
  (List.splitOnP goIsSpace s).filter (· ≠ [])

/-! ## Style model (style.go)

`Style` is Go's `map[string]string`.  A Go map is unordered; we represent it
canonically as an association list sorted strictly by key (the lexicographic
order on `List Char`, which on ASCII agrees with Go's byte order), so that map
equality is list equality.  All constructors below preserve that invariant. -/

abbrev Style := List (GoStr × GoStr)

/-- Result of the fallible `Style` mutators: Go's `(changed, err)` pair plus
the map as it stands after the call. -/
structure StyleOut where
  changed : Bool
  err : Bool
  map : Style
deriving Repr, DecidableEq

/-- `Style.Get`: Go map read, zero value `""` when absent. -/
def Style.Get (s : Style) (property : GoStr) : GoStr := (s.lookup property).getD []

/-- Go map assignment `s[k] = v` on the sorted-association-list
representation: replace the binding if the key is present, otherwise insert at
the key's sorted position. -/
def Style.setRaw (s : Style) (k v : GoStr) : Style :=
  match s with
  | [] => [(k, v)]
  | (k', v') :: rest =>
    if k = k' then (k, v) :: rest
    else if k < k' then (k, v) :: (k', v') :: rest
    else (k', v') :: Style.setRaw rest k v

/-- `Style.set` (the unexported raw set): assigns and reports whether the
binding is new or its value differs from the old one. -/
def Style.set (s : Style) (k v : GoStr) : Bool × Style :=
  let changed := match s.lookup k with
    | none => true
    | some oldVal => decide (oldVal ≠ v)
  (changed, Style.setRaw s k v)

/-- `Style.Remove`: Go `delete(s, property)`. -/
def Style.Remove (s : Style) (property : GoStr) : Style :=
  s.filter (fun kv => kv.1 ≠ property)

/-- `Style.RemoveAll`: clears every binding. -/
def Style.RemoveAll (_s : Style) : Style := []

/-- `Style.Merge`: copy the bindings of `m` over `s`, conflicts won by `m`. -/
def Style.Merge (s m : Style) : Style :=
  m.foldl (fun acc kv => Style.setRaw acc kv.1 kv.2) s

/-- The keys of `nonLengthNumerics`, the style properties whose bare numeric
values take no length unit. -/
def nonLengthNumerics : List GoStr :=
  [gs "volume", gs "speech-rate", gs "orphans", gs "widows", gs "pitch-range",
   gs "font-weight", gs "z-index", gs "counter-increment", gs "counter-reset"]

/-- The part of `numericMatcher` after the optional sign: a possibly empty
digit run and an optional fraction of a dot followed by at least one digit,
consuming the whole string. -/
def numericTail (s1 : GoStr) : Bool :=
  match s1.dropWhile Char.isDigit with
  | [] => true
  | '.' :: fd => !fd.isEmpty && fd.all Char.isDigit
  | _ => false

/-- The anchored regular expression `^-?[\d]*(\.[\d]+)?$` (`numericMatcher`):
an optional minus sign, a possibly empty digit run, and an optional fraction
of a dot followed by at least one digit. -/
def numericMatch (value : GoStr) : Bool :=
  match value with
  | '-' :: rest => numericTail rest
  | _ => numericTail value

/-! ### The in-place arithmetic path (`mathOp`)

Go computes in `float64`; the embedding uses exact rational arithmetic on an
unnormalized fraction type.  On the small decimal magnitudes the repository's
tests and the claims exercise, the two agree (the 6-digit rounding of
`roundFloat` was added precisely to wash out `float64` epsilons);
`float64`-specific artifacts (overflow to infinity, division by zero
producing `±Inf`, >53-bit mantissas) are outside this model and are noted
where relevant. -/

/-- An exact fraction standing in for a `float64` value: numerator over a
positive denominator, deliberately kept unnormalized so that every operation
is a plain structural computation. -/
structure GoFloat where
  num : Int
  den : Nat
deriving Repr, DecidableEq

def GoFloat.add (a b : GoFloat) : GoFloat :=
  ⟨a.num * b.den + b.num * a.den, a.den * b.den⟩

def GoFloat.sub (a b : GoFloat) : GoFloat :=
  ⟨a.num * b.den - b.num * a.den, a.den * b.den⟩

def GoFloat.mul (a b : GoFloat) : GoFloat :=
  ⟨a.num * b.num, a.den * b.den⟩

/-- Division; a zero divisor yields a zero denominator (Go's `±Inf`, which is
outside this model and noted at `mathOp`). -/
def GoFloat.div (a b : GoFloat) : GoFloat :=
  if 0 ≤ b.num then ⟨a.num * b.den, a.den * b.num.toNat⟩
  else ⟨-(a.num * b.den), a.den * (-b.num).toNat⟩

/-- Numeric value of an ASCII digit run, most significant first. -/
def digitsToNat (ds : GoStr) : Nat :=
  ds.foldl (fun n c => 10 * n + (c.toNat - 48)) 0

/-- Modelled from `strconv.ParseFloat` restricted to plain decimal forms
(optional sign, digits with an optional dot, optional exponent); the
`Inf`/`NaN` words, hexadecimal floats and digit-separating underscores that
`ParseFloat` also accepts are not modelled, and the exact rational value
stands in for the nearest `float64`. -/
def parseGoFloat (s : GoStr) : Option GoFloat :=
  let neg : Bool := match s with
    | '-' :: _ => true
    | _ => false
  let s1 : GoStr := match s with
    | '-' :: r => r
    | '+' :: r => r
    | _ => s
  let ip := s1.takeWhile Char.isDigit
  let r1 := s1.dropWhile Char.isDigit
  let fp : GoStr := match r1 with
    | '.' :: r => r.takeWhile Char.isDigit
    | _ => []
  let r2 : GoStr := match r1 with
    | '.' :: r => r.dropWhile Char.isDigit
    | _ => r1
  if ip = [] ∧ fp = [] then none
  else
    let mn : Int := (digitsToNat ip * 10 ^ fp.length + digitsToNat fp : Nat)
    let mantNum : Int := if neg then -mn else mn
    let mantDen : Nat := 10 ^ fp.length
    match r2 with
    | [] => some ⟨mantNum, mantDen⟩
    | e :: r3 =>
      if e = 'e' ∨ e = 'E' then
        let pos : Bool := match r3 with
          | '-' :: _ => false
          | _ => true
        let r4 : GoStr := match r3 with
          | '-' :: r => r
          | '+' :: r => r
          | _ => r3
        let eds := r4.takeWhile Char.isDigit
        if eds ≠ [] ∧ r4.dropWhile Char.isDigit = [] then
          if pos then some ⟨mantNum * (10 : Int) ^ digitsToNat eds, mantDen⟩
          else some ⟨mantNum, mantDen * 10 ^ digitsToNat eds⟩
        else none
      else none

/-- `roundFloat`: round to `digits` decimal places, half away from zero,
collapsing magnitudes below half an ulp of the last place to exactly `0`.
For a fraction `a / b` with `a ≥ 0`, `int(a / b + 0.5)` is the integer
quotient `(2a + b) / (2b)`. -/
def roundFloat (f : GoFloat) (digits : Nat) : GoFloat :=
  let a : Int := f.num * (10 : Int) ^ digits
  let b : Nat := f.den
  if 2 * a.natAbs < b then ⟨0, 1⟩
  else
    let v : Int :=
      if 0 ≤ a then ((2 * a.toNat + b) / (2 * b) : Nat)
      else -(((2 * (-a).toNat + b) / (2 * b) : Nat) : Int)
    ⟨v, (10 : Nat) ^ digits⟩

/-- Modelled from `fmt.Sprint` on a `float64` (`strconv.FormatFloat` with verb
`g` and shortest precision), for values that are integer multiples of
`10 ^ (-6)` — the only values `roundFloat` produces: plain decimal notation
in the exponent range `[-4, 21)` and `d.ddde±XX` notation outside it. -/
def formatQ (q : GoFloat) : GoStr :=
  if q.num = 0 then gs "0"
  else
    let sgn : GoStr := if q.num < 0 then gs "-" else []
    let k : ℕ := q.num.natAbs * 1000000 / q.den
    let ds := Nat.toDigits 10 k
    let core := (ds.reverse.dropWhile (· = '0')).reverse
    let tz := ds.length - core.length
    let decExp : ℤ := (core.length : ℤ) - 1 + tz - 6
    if decExp < -4 ∨ 21 ≤ decExp then
      let mant : GoStr := match core with
        | [] => gs "0"
        | d :: rest => if rest = [] then [d] else d :: '.' :: rest
      let eAbs := (if decExp < 0 then -decExp else decExp).toNat
      let eds0 := Nat.toDigits 10 eAbs
      let eds := if eds0.length < 2 then '0' :: eds0 else eds0
      sgn ++ mant ++ 'e' :: (if decExp < 0 then '-' else '+') :: eds
    else if 6 ≤ tz then sgn ++ core ++ List.replicate (tz - 6) '0'
    else
      let fracLen := 6 - tz
      if fracLen < core.length then
        sgn ++ core.take (core.length - fracLen) ++ '.' :: core.drop (core.length - fracLen)
      else
        sgn ++ '0' :: '.' :: (List.replicate (fracLen - core.length) '0' ++ core)

/-- `opReplacer`'s replacement function: `""` passes through (the source's
"bug workaround"), an unparsable match — only a bare `"-"` can occur — is
Go's `panic`, modelled as `none`; otherwise apply the operation and format the
rounded result. -/
def opReplacer (op : GoStr) (v : GoFloat) (cur : GoStr) : Option GoStr :=
  if cur = [] then some []
  else
    match parseGoFloat cur with
    | none => none
    | some f =>
      if op = gs "+" then some (formatQ (roundFloat (f.add v) 6))
      else if op = gs "-" then some (formatQ (roundFloat (f.sub v) 6))
      else if op = gs "*" then some (formatQ (roundFloat (f.mul v) 6))
      else if op = gs "/" then some (formatQ (roundFloat (f.div v) 6))
      else none

/-- The greedy match of `[\d]*(\.[\d]+)?` at the head of `s1` (the sign
handled by `matchNum`), returned with the rest of the string. -/
def matchNumCore (s1 : GoStr) : GoStr × GoStr :=
  match s1.dropWhile Char.isDigit with
  | '.' :: r2 =>
    if r2.takeWhile Char.isDigit = [] then
      (s1.takeWhile Char.isDigit, s1.dropWhile Char.isDigit)
    else
      (s1.takeWhile Char.isDigit ++ '.' :: r2.takeWhile Char.isDigit,
       r2.dropWhile Char.isDigit)
  | _ => (s1.takeWhile Char.isDigit, s1.dropWhile Char.isDigit)

/-- The greedy match of `-?[\d]*(\.[\d]+)?` at the head of `s`, returned with
the rest of the string.  Go's regexp engine takes exactly this greedy parse at
each position. -/
def matchNum (s : GoStr) : GoStr × GoStr :=
  match s with
  | '-' :: r => (('-' :: (matchNumCore r).1 : GoStr), (matchNumCore r).2)
  | _ => matchNumCore s

theorem matchNumCore_append (s1 : GoStr) :
    (matchNumCore s1).1 ++ (matchNumCore s1).2 = s1 := by
  unfold matchNumCore
  split
  next r2 heq =>
    split
    next =>
      exact List.takeWhile_append_dropWhile _ _
    next hfd =>
      have h2 : r2.takeWhile Char.isDigit ++ r2.dropWhile Char.isDigit = r2 :=
        List.takeWhile_append_dropWhile _ _
      have h1 : s1.takeWhile Char.isDigit ++ ('.' :: r2) = s1 := by
        rw [← heq]
        exact List.takeWhile_append_dropWhile _ _
      show s1.takeWhile Char.isDigit ++ '.' :: r2.takeWhile Char.isDigit ++
        r2.dropWhile Char.isDigit = s1
      simp only [List.append_assoc, List.cons_append]
      rw [h2]
      exact h1
  next =>
    exact List.takeWhile_append_dropWhile _ _

theorem matchNum_append (s : GoStr) : (matchNum s).1 ++ (matchNum s).2 = s := by
  unfold matchNum
  split
  next r => simpa using matchNumCore_append r
  next => exact matchNumCore_append s

/-- The scanning loop of `ReplaceAllStringFunc`, structurally recursive on a
fuel counter so that it evaluates by reduction: every iteration consumes at
least one character, so fuel equal to the string's length (as passed by
`replaceNums`) never runs out and the `0, _ :: _` branch is dead code. -/
def replaceNumsGo (op : GoStr) (v : GoFloat) : Nat → GoStr → Option GoStr
  | _, [] => some []
  | 0, _ :: _ => some []
  | fuel + 1, c :: rest =>
    let p := matchNum (c :: rest)
    if p.1 = [] then
      (fun t => c :: t) <$> replaceNumsGo op v fuel rest
    else
      match opReplacer op v p.1 with
      | none => none
      | some out => (fun t => out ++ t) <$> replaceNumsGo op v fuel p.2

/-- `numericReplacer.ReplaceAllStringFunc cur (opReplacer op v)`: scan left to
right; at each position take the greedy match of the pattern.  An empty match
is replaced by the replacement of `""` — which is `""` — and the scan advances
one character; a non-empty match is replaced and the scan continues after it.
`none` is the `panic` inside `opReplacer`. -/
def replaceNums (op : GoStr) (v : GoFloat) (s : GoStr) : Option GoStr :=
  replaceNumsGo op v s.length s

/-- `Style.mathOp`: apply `op` with operand `val` to every numeric run in the
current value of `property` (base `"0"` when absent).  A `ParseFloat` failure
on `val` is an error return; a `panic` inside the replacement is `none`. -/
def Style.mathOp (s : Style) (property op val : GoStr) : Option StyleOut :=
  let cur0 := Style.Get s property
  let cur := if cur0 = [] then gs "0" else cur0
  match parseGoFloat val with
  | none => some ⟨false, true, s⟩
  | some f =>
    match replaceNums op f cur with
    | none => none
    | some newStr =>
      let r := Style.set s property newStr
      some ⟨r.1, false, r.2⟩

/-- The four `strings.HasPrefix` tests at the top of `Style.SetChanged` that
route a value of the form `"<op> rest"`, `op` one of `+ - * /`, to `mathOp`. -/
def isMathVal (value : GoStr) : Bool :=
  hasPre (gs "+ ") value || hasPre (gs "- ") value ||
    hasPre (gs "* ") value || hasPre (gs "/ ") value

/-- `Style.SetChanged`: names with spaces are errors; a value passing
`isMathVal` dispatches to `mathOp` on `value[0:1]` and `value[2:]`; the
literal `"0"` is stored unchanged; a value matched by `numericMatcher` gets
`"px"` appended unless the property is in `nonLengthNumerics`; everything
else is stored verbatim. -/
def Style.SetChanged (s : Style) (property value : GoStr) : Option StyleOut :=
  if ' ' ∈ property then some ⟨false, true, s⟩
  else if isMathVal value then
    Style.mathOp s property (value.take 1) (value.drop 2)
  else if value = gs "0" then
    let r := Style.set s property value
    some ⟨r.1, false, r.2⟩
  else if numericMatch value then
    let value' := if nonLengthNumerics.contains property then value else value ++ gs "px"
    let r := Style.set s property value'
    some ⟨r.1, false, r.2⟩
  else
    let r := Style.set s property value
    some ⟨r.1, false, r.2⟩

/-- The loop of `Style.SetString` over the `;`-separated segments: each
segment must split on `:` into exactly two fields, which are trimmed and
passed to `SetChanged`; the loop stops at the first failure, keeping the map
as mutated so far. -/
def Style.setStringLoop (m : Style) (changed : Bool) : List GoStr → Option StyleOut
  | [] => some ⟨changed, false, m⟩
  | seg :: rest =>
    let b := goSplit ':' seg
    if b.length ≠ 2 then some ⟨changed, true, m⟩
    else
      match Style.SetChanged m (trimSpace (b.getD 0 [])) (trimSpace (b.getD 1 [])) with
      | none => none
      | some r =>
        if r.err then some ⟨changed, true, r.map⟩
        else Style.setStringLoop r.map (changed || r.changed) rest

/-- `Style.SetString`: `RemoveAll` first (the incoming bindings of `s` never
survive), then the segment loop. -/
def Style.SetString (s : Style) (text : GoStr) : Option StyleOut :=
  Style.setStringLoop (Style.RemoveAll s) false (goSplit ';' text)

/-- `Style.encode`: keys collected and sorted (`sort.Strings`), then joined as
`key:value` pairs with `;` separators. -/
def Style.encode (s : Style) : GoStr :=
  let keys := List.insertionSort (fun a b : GoStr => a ≤ b) (s.map Prod.fst)
  List.intercalate [';'] (keys.map (fun k => k ++ ':' :: Style.Get s k))

/-- `MergeStyleStrings`: parse both strings (errors discarded, panics
propagated), merge with `s2` winning, and encode. -/
def MergeStyleStrings (s1 s2 : GoStr) : Option GoStr := do
  let r1 ← Style.SetString [] s1
  let r2 ← Style.SetString [] s2
  some (Style.encode (Style.Merge r1.map r2.map))

/-! ## Claim C3: what `Style.SetChanged` stores on the non-arithmetic path -/

/-- The language of the numeric pattern the source actually compiles,
`-?[\d]*(\.[\d]+)?`, stated abstractly: an optional minus sign, a possibly
empty run of digits, and an optional dot followed by at least one digit. -/
def NumericTok (v : GoStr) : Prop :=
  ∃ sgn ds fr : GoStr,
    v = sgn ++ ds ++ fr ∧ (sgn = [] ∨ sgn = ['-']) ∧
    (∀ c ∈ ds, c.isDigit) ∧
    (fr = [] ∨ ∃ fd, fd ≠ [] ∧ (∀ c ∈ fd, c.isDigit) ∧ fr = '.' :: fd)

theorem numericTail_iff (s1 : GoStr) :
    numericTail s1 = true ↔
      ∃ ds fr : GoStr, s1 = ds ++ fr ∧ (∀ c ∈ ds, c.isDigit) ∧
        (fr = [] ∨ ∃ fd, fd ≠ [] ∧ (∀ c ∈ fd, c.isDigit) ∧ fr = '.' :: fd) := by
  constructor
  · intro h
    unfold numericTail at h
    split at h
    next hdw =>
      exact ⟨s1, [], by simp, fun c hc => List.dropWhile_eq_nil_iff.mp hdw c hc, Or.inl rfl⟩
    next fd hdw =>
      simp only [Bool.and_eq_true, Bool.not_eq_true', List.all_eq_true] at h
      have hfd0 : fd ≠ [] := by
        intro hfd
        rw [hfd] at h
        simp at h
      refine ⟨s1.takeWhile Char.isDigit, '.' :: fd, ?_, ?_, Or.inr ⟨fd, hfd0, h.2, rfl⟩⟩
      · rw [← hdw]
        exact (List.takeWhile_append_dropWhile _ _).symm
      · intro c hc
        exact List.mem_takeWhile_imp hc
    next =>
      exact absurd h (by simp)
  · rintro ⟨ds, fr, rfl, hds, hfr⟩
    have hds' : ds.dropWhile Char.isDigit = [] :=
      List.dropWhile_eq_nil_iff.mpr fun c hc => hds c hc
    have hdw : (ds ++ fr).dropWhile Char.isDigit = fr.dropWhile Char.isDigit := by
      rw [List.dropWhile_append, hds']
      simp
    rcases hfr with rfl | ⟨fd, hfd0, hfd, rfl⟩
    · unfold numericTail
      rw [hdw]
      simp [List.dropWhile_nil]
    · have hdot : ('.' :: fd).dropWhile Char.isDigit = '.' :: fd := by
        rw [List.dropWhile_cons]
        simp
      unfold numericTail
      rw [hdw, hdot]
      simp only [Bool.and_eq_true, Bool.not_eq_true', List.all_eq_true]
      exact ⟨by simpa using hfd0, hfd⟩

theorem numericMatch_iff (v : GoStr) : numericMatch v = true ↔ NumericTok v := by
  have hdigit : ∀ c : Char, c.isDigit = true → c ≠ '-' := by
    intro c hc hne
    subst hne
    exact absurd hc (by decide)
  rcases v with _ | ⟨c, rest⟩
  · show numericTail [] = true ↔ NumericTok []
    constructor
    · intro _
      exact ⟨[], [], [], by simp, Or.inl rfl, by simp, Or.inl rfl⟩
    · intro _
      decide
  · by_cases hc : c = '-'
    · subst hc
      show numericTail rest = true ↔ NumericTok ('-' :: rest)
      rw [numericTail_iff]
      constructor
      · rintro ⟨ds, fr, rfl, hds, hfr⟩
        exact ⟨['-'], ds, fr, by simp, Or.inr rfl, hds, hfr⟩
      · rintro ⟨sgn, ds, fr, hv, hsgn, hds, hfr⟩
        rcases hsgn with rfl | rfl
        · -- the decomposition cannot start with '-' when the sign is absent
          exfalso
          simp only [List.nil_append] at hv
          rcases ds with _ | ⟨d, ds'⟩
          · rcases hfr with rfl | ⟨fd, _, _, rfl⟩
            · simp at hv
            · simp only [List.nil_append, List.cons.injEq] at hv
              exact absurd hv.1 (by decide)
          · simp only [List.cons_append, List.cons.injEq] at hv
            exact hdigit d (hds d (by simp)) hv.1.symm
        · simp only [List.cons_append, List.nil_append, List.cons.injEq] at hv
          exact ⟨ds, fr, hv.2, hds, hfr⟩
    · have hred : numericMatch (c :: rest) = numericTail (c :: rest) := by
        unfold numericMatch
        split
        next heq =>
          exfalso
          simp only [List.cons.injEq] at heq
          exact hc heq.1
        next => rfl
      rw [hred, numericTail_iff]
      constructor
      · rintro ⟨ds, fr, hv, hds, hfr⟩
        exact ⟨[], ds, fr, by simpa using hv, Or.inl rfl, hds, hfr⟩
      · rintro ⟨sgn, ds, fr, hv, hsgn, hds, hfr⟩
        rcases hsgn with rfl | rfl
        · refine ⟨ds, fr, ?_, hds, hfr⟩
          simpa using hv
        · exfalso
          simp only [List.cons_append, List.nil_append, List.cons.injEq] at hv
          exact hc hv.1

instance (v : GoStr) : Decidable (NumericTok v) :=
  decidable_of_iff (numericMatch v = true) (numericMatch_iff v)

/-- The claim's description of the stored value on the non-arithmetic path,
with the numeric pattern replaced by the abstract language `NumericTok` of
the pattern the source compiles (the one amendment). -/
def specStoredVal (property value : GoStr) : GoStr :=
  if value = gs "0" then value
  else if NumericTok value then
    (if nonLengthNumerics.contains property then value else value ++ gs "px")
  else value

/-- Workhorse behind claim C3, shared with the round-trip development: on the
non-arithmetic path `SetChanged` succeeds and stores `specStoredVal`. -/
theorem setChangedStores (m : Style) (property value : GoStr)
    (hsp : ' ' ∉ property) (hop : isMathVal value = false) :
    Style.SetChanged m property value =
      some ⟨(Style.set m property (specStoredVal property value)).1, false,
            (Style.set m property (specStoredVal property value)).2⟩ := by
  unfold Style.SetChanged specStoredVal
  rw [if_neg hsp, hop]
  simp only [Bool.false_eq_true, if_false]
  by_cases h0 : value = gs "0"
  · rw [if_pos h0, if_pos h0]
  · rw [if_neg h0, if_neg h0]
    by_cases hnum : numericMatch value = true
    · rw [if_pos hnum, if_pos ((numericMatch_iff value).mp hnum)]
    · rw [if_neg hnum, if_neg (fun hn => hnum ((numericMatch_iff value).mpr hn))]

/-- C3 (amended): for every property name without spaces and every value not
taking the arithmetic path, `Style.SetChanged` succeeds and stores the literal
`"0"` unchanged; appends `"px"` to every value of the numeric language
`-?digits*(.digits+)?` — whose integer digit run may be empty, so the empty
string and a lone `"-"` also count as numeric — unless the property is in the
fixed non-length set; and stores every other value verbatim. -/
theorem C3_setChanged_stores (m : Style) (property value : GoStr)
    (hsp : ' ' ∉ property) (hop : isMathVal value = false) :
    Style.SetChanged m property value =
      some ⟨(Style.set m property (specStoredVal property value)).1, false,
            (Style.set m property (specStoredVal property value)).2⟩ :=
  setChangedStores m property value hsp hop

/-- Witness for C3: a plain numeric value on a length property gains `px`. -/
theorem C3_setChanged_stores_witness :
    Style.SetChanged [] (gs "margin") (gs "5") =
      some ⟨(Style.set [] (gs "margin") (specStoredVal (gs "margin") (gs "5"))).1, false,
            (Style.set [] (gs "margin") (specStoredVal (gs "margin") (gs "5"))).2⟩ ∧
    specStoredVal (gs "margin") (gs "5") = gs "5px" :=
  ⟨C3_setChanged_stores [] (gs "margin") (gs "5") (by decide) (by decide), by decide⟩

/-- C3 counterexample: the claim says a value with no digits, such as the
empty string, is stored verbatim; the compiled pattern `-?[\d]*(\.[\d]+)?`
accepts an empty digit run, so the code stores `"px"` for the empty value. -/
theorem C3_counterexample :
    Style.SetChanged [] (gs "a") (gs "") =
      some ⟨true, false, [(gs "a", gs "px")]⟩ ∧ gs "px" ≠ gs "" := by
  constructor
  · decide
  · decide

/-! ## Claim C4: `Style.SetString` failure behaviour -/

/-- Whether processing one `;`-segment fails: the `:`-split does not give
exactly two fields, the trimmed property name contains a space, or an
arithmetic value whose operand does not parse as a number.  These are the
only error sources of `SetChanged`, and none of them depends on the current
contents of the map. -/
def segFails (seg : GoStr) : Bool :=
  let b := goSplit ':' seg
  decide (b.length ≠ 2) ||
    (let k := trimSpace (b.getD 0 [])
     let v := trimSpace (b.getD 1 [])
     decide (' ' ∈ k) || (isMathVal v && (parseGoFloat (v.drop 2)).isNone))

/-- The map after processing one segment (the `none` branch — a Go panic,
under which the caller never observes a map at all — is dead code in every
context this function is used in). -/
def styleApplySeg (m : Style) (seg : GoStr) : Style :=
  let b := goSplit ':' seg
  match Style.SetChanged m (trimSpace (b.getD 0 [])) (trimSpace (b.getD 1 [])) with
  | none => m
  | some r => r.map

theorem setChanged_err_iff (m : Style) (k v : GoStr) (r : StyleOut)
    (h : Style.SetChanged m k v = some r) :
    (r.err = true ↔ (' ' ∈ k ∨ (isMathVal v = true ∧ parseGoFloat (v.drop 2) = none))) ∧
    (r.err = true → r.map = m) := by
  unfold Style.SetChanged at h
  by_cases hk : ' ' ∈ k
  · rw [if_pos hk] at h
    cases h
    exact ⟨by simp [hk], fun _ => rfl⟩
  · rw [if_neg hk] at h
    by_cases hmv : isMathVal v = true
    · rw [if_pos hmv] at h
      unfold Style.mathOp at h
      rcases hp : parseGoFloat (v.drop 2) with _ | f
      · rw [hp] at h
        cases h
        exact ⟨by simp [hk, hmv, hp], fun _ => rfl⟩
      · simp only [hp] at h
        rcases hr : replaceNums (v.take 1) f
            (if Style.Get m k = [] then gs "0" else Style.Get m k) with _ | newStr
        · simp only [hr] at h
          exact Option.noConfusion h
        · simp only [hr] at h
          cases h
          refine ⟨by simp [hk, hp], fun hfalse => by simp at hfalse⟩
    · rw [if_neg hmv] at h
      by_cases h0 : v = gs "0"
      · rw [if_pos h0] at h
        cases h
        exact ⟨by simp [hk, hmv], fun hfalse => by simp at hfalse⟩
      · rw [if_neg h0] at h
        by_cases hnum : numericMatch v = true
        · rw [if_pos hnum] at h
          cases h
          exact ⟨by simp [hk, hmv], fun hfalse => by simp at hfalse⟩
        · rw [if_neg hnum] at h
          cases h
          exact ⟨by simp [hk, hmv], fun hfalse => by simp at hfalse⟩

theorem setStringLoop_err (segs : List GoStr) :
    ∀ m ch r, Style.setStringLoop m ch segs = some r → r.err = true →
      r.map = (segs.takeWhile (fun s => !segFails s)).foldl styleApplySeg m ∧
      segs.any segFails = true := by
  induction segs with
  | nil =>
    intro m ch r h herr
    unfold Style.setStringLoop at h
    cases h
    simp at herr
  | cons seg rest ih =>
    intro m ch r h herr
    unfold Style.setStringLoop at h
    by_cases hb : (goSplit ':' seg).length ≠ 2
    · rw [if_pos hb] at h
      cases h
      have hfail : segFails seg = true := by
        simp only [segFails, Bool.or_eq_true, decide_eq_true_eq, Bool.and_eq_true,
          Option.isNone_iff_eq_none]
        exact Or.inl hb
      rw [List.takeWhile_cons, List.any_cons]
      simp [hfail]
    · rw [if_neg hb] at h
      rcases hsc : Style.SetChanged m (trimSpace ((goSplit ':' seg).getD 0 []))
          (trimSpace ((goSplit ':' seg).getD 1 [])) with _ | r'
      · rw [hsc] at h
        cases h
      · simp only [hsc] at h
        obtain ⟨hiff, hmap⟩ := setChanged_err_iff _ _ _ _ hsc
        by_cases herr' : r'.err = true
        · rw [if_pos herr'] at h
          cases h
          have hfail : segFails seg = true := by
            simp only [segFails, Bool.or_eq_true, decide_eq_true_eq, Bool.and_eq_true,
              Option.isNone_iff_eq_none]
            rcases hiff.mp herr' with hk | ⟨hm1, hm2⟩
            · exact Or.inr (Or.inl hk)
            · exact Or.inr (Or.inr ⟨hm1, hm2⟩)
          rw [List.takeWhile_cons, List.any_cons]
          simp only [hfail, Bool.not_true, Bool.false_eq_true, if_false, List.foldl_nil,
            Bool.true_or, and_true]
          exact hmap herr'
        · rw [if_neg herr'] at h
          obtain ⟨ihmap, ihany⟩ := ih r'.map (ch || r'.changed) r h herr
          have hok : segFails seg = false := by
            rcases hsf : segFails seg with _ | _
            · rfl
            · exfalso
              simp only [segFails, Bool.or_eq_true, Bool.and_eq_true, decide_eq_true_eq,
                Option.isNone_iff_eq_none] at hsf
              rcases hsf with h1 | h2 | ⟨h3, h4⟩
              · exact hb h1
              · exact herr' (hiff.mpr (Or.inl h2))
              · exact herr' (hiff.mpr (Or.inr ⟨h3, h4⟩))
          have happ : styleApplySeg m seg = r'.map := by
            simp only [styleApplySeg, hsc]
          rw [List.takeWhile_cons, List.any_cons]
          simp only [hok, Bool.not_false, if_true, List.foldl_cons, Bool.false_or]
          exact ⟨by rw [happ]; exact ihmap, ihany⟩

/-- C4 (amended): when `Style.SetString` returns an error, the pre-call
contents are cleared — the outcome is the same as from an empty map, whatever
the map held at entry — but, contrary to the original claim, the well-formed
segments preceding the failing one remain applied: the resulting map is
exactly the fold of the error-free prefix of segments over an empty map (and
some segment of the input indeed fails). -/
theorem C4_setString_partial (s : Style) (text : GoStr) (r : StyleOut)
    (h : Style.SetString s text = some r) (herr : r.err = true) :
    Style.SetString s text = Style.SetString [] text ∧
    r.map = ((goSplit ';' text).takeWhile (fun seg => !segFails seg)).foldl styleApplySeg [] ∧
    (goSplit ';' text).any segFails = true := by
  refine ⟨rfl, ?_⟩
  exact setStringLoop_err (goSplit ';' text) [] false r h herr

/-- Witness for C4: `"a:1;b"` fails on segment `"b"` with `a:1px` applied. -/
theorem C4_setString_partial_witness :
    Style.SetString [(gs "c", gs "d")] (gs "a:1;b") = Style.SetString [] (gs "a:1;b") ∧
    (⟨true, true, [(gs "a", gs "1px")]⟩ : StyleOut).map =
      ((goSplit ';' (gs "a:1;b")).takeWhile (fun seg => !segFails seg)).foldl
        styleApplySeg [] ∧
    (goSplit ';' (gs "a:1;b")).any segFails = true :=
  C4_setString_partial [(gs "c", gs "d")] (gs "a:1;b") ⟨true, true, [(gs "a", gs "1px")]⟩
    (by decide) (by decide)

/-- C4 counterexample: the claim says a failing `SetString` leaves the map
with no properties at all; on `"a:1;b"` the parse fails (segment `"b"` has no
colon) yet the map still holds the earlier segment's binding `a ↦ 1px`. -/
theorem C4_counterexample :
    Style.SetString [] (gs "a:1;b") = some ⟨true, true, [(gs "a", gs "1px")]⟩ ∧
    [(gs "a", gs "1px")] ≠ ([] : Style) :=
  ⟨by decide, by decide⟩

/-! ## Claim C2: round trip of `parse` and `encode`

Helper lemmas on `trimSpace`, `splitOn` parts and character classes, then the
invariant that a successful arithmetic-free parse leaves only "storable"
bindings, and finally the round-trip theorem. -/

theorem dropWhile_head_false {p : Char → Bool} {l : GoStr} {c : Char} {t : GoStr}
    (hd : l.dropWhile p = c :: t) : p c = false := by
  induction l with
  | nil => simp at hd
  | cons a l ih =>
    rw [List.dropWhile_cons] at hd
    rcases hpa : p a with _ | _
    · rw [hpa] at hd
      simp only [Bool.false_eq_true, if_false, List.cons.injEq] at hd
      rw [← hd.1]
      exact hpa
    · rw [hpa] at hd
      simp only [if_true] at hd
      exact ih hd

theorem dropWhile_eq_self_of_all {p : Char → Bool} {l : GoStr}
    (h : ∀ c ∈ l, p c = false) : l.dropWhile p = l := by
  cases l with
  | nil => rfl
  | cons c t =>
    rw [List.dropWhile_cons, h c (List.mem_cons_self c t)]
    simp

theorem dropWhile_idem {p : Char → Bool} (l : GoStr) :
    (l.dropWhile p).dropWhile p = l.dropWhile p := by
  rcases hd : l.dropWhile p with _ | ⟨c, t⟩
  · rfl
  · rw [List.dropWhile_cons, dropWhile_head_false hd]
    simp

theorem dropWhile_append_of_fixed {p : Char → Bool} {a : GoStr} (b : GoStr)
    (h : a.dropWhile p = a) (hne : a ≠ []) :
    (a ++ b).dropWhile p = a ++ b := by
  rcases a with _ | ⟨c, t⟩
  · exact absurd rfl hne
  · have hc : p c = false := dropWhile_head_false h
    rw [List.cons_append, List.dropWhile_cons, hc]
    simp

theorem trim_fixed_of_parts {v : GoStr} (h1 : v.dropWhile goIsSpace = v)
    (h2 : v.reverse.dropWhile goIsSpace = v.reverse) : trimSpace v = v := by
  unfold trimSpace
  rw [h1, h2, List.reverse_reverse]

theorem trim_eq_self_parts {v : GoStr} (h : trimSpace v = v) :
    v.dropWhile goIsSpace = v ∧ v.reverse.dropWhile goIsSpace = v.reverse := by
  have hsub1 : (v.dropWhile goIsSpace).Sublist v := List.dropWhile_sublist _
  have h1 : v.dropWhile goIsSpace = v := by
    apply hsub1.eq_of_length
    have hle1 := hsub1.length_le
    have hle2 :=
      (List.dropWhile_sublist (l := (v.dropWhile goIsSpace).reverse) goIsSpace).length_le
    have hlen : (trimSpace v).length =
        (((v.dropWhile goIsSpace).reverse).dropWhile goIsSpace).length := by
      unfold trimSpace
      rw [List.length_reverse]
    rw [h] at hlen
    rw [List.length_reverse] at hle2
    omega
  refine ⟨h1, ?_⟩
  have h' := h
  unfold trimSpace at h'
  rw [h1] at h'
  have h'' := congrArg List.reverse h'
  rwa [List.reverse_reverse] at h''

theorem trimSpace_idem (s : GoStr) : trimSpace (trimSpace s) = trimSpace s := by
  apply trim_fixed_of_parts
  · show (trimSpace s).dropWhile goIsSpace = trimSpace s
    rcases hbr : trimSpace s with _ | ⟨c, t⟩
    · rfl
    · have hpre : (c :: t) <+:
          s.dropWhile goIsSpace := by
        rw [← hbr]
        show trimSpace s <+: s.dropWhile goIsSpace
        unfold trimSpace
        conv_rhs => rw [← List.reverse_reverse (s.dropWhile goIsSpace)]
        exact List.reverse_prefix.mpr (List.dropWhile_suffix _)
      obtain ⟨r, hr⟩ := hpre
      have hc : goIsSpace c = false := by
        apply dropWhile_head_false (l := s) (t := t ++ r)
        rw [← hr]
        rfl
      rw [List.dropWhile_cons, hc]
      simp
  · have hrev : (trimSpace s).reverse = (s.dropWhile goIsSpace).reverse.dropWhile goIsSpace := by
      unfold trimSpace
      rw [List.reverse_reverse]
    rw [hrev]
    exact dropWhile_idem _

theorem trim_append_no_space {v p : GoStr} (hv : trimSpace v = v)
    (hne : p ≠ []) (hall : ∀ c ∈ p, goIsSpace c = false) :
    trimSpace (v ++ p) = v ++ p := by
  obtain ⟨h1, _h2⟩ := trim_eq_self_parts hv
  apply trim_fixed_of_parts
  · rcases hv0 : v with _ | ⟨c, t⟩
    · simpa using dropWhile_eq_self_of_all hall
    · rw [← hv0]
      exact dropWhile_append_of_fixed p h1 (by rw [hv0]; simp)
  · rw [List.reverse_append]
    have hpr : (p.reverse).dropWhile goIsSpace = p.reverse :=
      dropWhile_eq_self_of_all (fun c hc => hall c (List.mem_reverse.mp hc))
    exact dropWhile_append_of_fixed _ hpr (by simpa using hne)

theorem trim_of_no_space {v : GoStr} (hall : ∀ c ∈ v, goIsSpace c = false) :
    trimSpace v = v := by
  apply trim_fixed_of_parts
  · exact dropWhile_eq_self_of_all hall
  · exact dropWhile_eq_self_of_all (fun c hc => hall c (List.mem_reverse.mp hc))

theorem mem_trimSpace {x : Char} {s : GoStr} (h : x ∈ trimSpace s) : x ∈ s := by
  unfold trimSpace at h
  rw [List.mem_reverse] at h
  have h2 := (List.dropWhile_sublist (l := (s.dropWhile goIsSpace).reverse) goIsSpace).subset h
  rw [List.mem_reverse] at h2
  exact (List.dropWhile_sublist (l := s) goIsSpace).subset h2

theorem splitOn_part_subset {c : Char} {s : GoStr} :
    ∀ p ∈ s.splitOn c, c ∉ p ∧ ∀ x ∈ p, x ∈ s := by
  induction s with
  | nil =>
    intro p hp
    rw [List.splitOn_nil] at hp
    simp only [List.mem_singleton] at hp
    subst hp
    simp
  | cons a t ih =>
    intro p hp
    have hps : (a :: t).splitOn c = if a == c then [] :: t.splitOn c
        else (t.splitOn c).modifyHead (List.cons a) := by
      show (a :: t).splitOnP (· == c) = if (a == c) = true then [] :: t.splitOnP (· == c)
          else (t.splitOnP (· == c)).modifyHead (List.cons a)
      exact List.splitOnP_cons (p := (· == c)) a t
    rw [hps] at hp
    by_cases hac : a = c
    · rw [if_pos (by simp [hac])] at hp
      rcases List.mem_cons.mp hp with rfl | hp2
      · simp
      · have h3 := ih p hp2
        exact ⟨h3.1, fun x hx => List.mem_cons_of_mem _ (h3.2 x hx)⟩
    · rw [if_neg (by simp [hac])] at hp
      rcases hsp : t.splitOn c with _ | ⟨h0, rest⟩
      · exact absurd hsp (List.splitOnP_ne_nil _ _)
      · rw [hsp, List.modifyHead_cons] at hp
        rcases List.mem_cons.mp hp with rfl | hp2
        · have hh := ih h0 (by rw [hsp]; exact List.mem_cons_self _ _)
          refine ⟨?_, ?_⟩
          · intro hcm
            rcases List.mem_cons.mp hcm with rfl | hc2
            · exact hac rfl
            · exact hh.1 hc2
          · intro x hx
            rcases List.mem_cons.mp hx with rfl | hx2
            · exact List.mem_cons_self _ _
            · exact List.mem_cons_of_mem _ (hh.2 x hx2)
        · have h3 := ih p (by rw [hsp]; exact List.mem_cons_of_mem _ hp2)
          exact ⟨h3.1, fun x hx => List.mem_cons_of_mem _ (h3.2 x hx)⟩

theorem numericTok_chars {v : GoStr} (h : NumericTok v) :
    ∀ c ∈ v, c.isDigit = true ∨ c = '-' ∨ c = '.' := by
  obtain ⟨sgn, ds, fr, rfl, hsgn, hds, hfr⟩ := h
  intro c hc
  simp only [List.mem_append] at hc
  rcases hc with (hc | hc) | hc
  · rcases hsgn with rfl | rfl
    · simp at hc
    · right
      left
      simpa using hc
  · exact Or.inl (hds c hc)
  · rcases hfr with rfl | ⟨fd, _, hfd, rfl⟩
    · simp at hc
    · rcases List.mem_cons.mp hc with rfl | hc2
      · right
        right
        rfl
      · exact Or.inl (hfd c hc2)

theorem isMathVal_eq_false_of_no_space {v : GoStr} (h : ' ' ∉ v) :
    isMathVal v = false := by
  rcases hmv : isMathVal v with _ | _
  · rfl
  · exfalso
    have hsp : ∀ p : GoStr, p.isPrefixOf v = true → ' ' ∈ p → False := fun p hp hmem =>
      h ((List.isPrefixOf_iff_prefix.mp hp).subset hmem)
    simp only [isMathVal, Bool.or_eq_true, hasPre] at hmv
    rcases hmv with ((h1 | h2) | h3) | h4
    · exact hsp _ h1 (by decide)
    · exact hsp _ h2 (by decide)
    · exact hsp _ h3 (by decide)
    · exact hsp _ h4 (by decide)

/-- The invariant the canonical map representation maintains: keys strictly
ascending in the lexicographic order. -/
def SortedKeys (m : Style) : Prop := List.Sorted (· < ·) (m.map Prod.fst)

theorem setRaw_mem_cases {m : Style} {k v : GoStr} :
    ∀ kv ∈ Style.setRaw m k v, kv = (k, v) ∨ kv ∈ m := by
  induction m with
  | nil =>
    intro kv hkv
    simp only [Style.setRaw, List.mem_singleton] at hkv
    exact Or.inl hkv
  | cons kv0 rest ih =>
    intro kv hkv
    obtain ⟨k', v'⟩ := kv0
    simp only [Style.setRaw] at hkv
    by_cases h1 : k = k'
    · rw [if_pos h1] at hkv
      rcases List.mem_cons.mp hkv with rfl | h2
      · exact Or.inl rfl
      · exact Or.inr (List.mem_cons_of_mem _ h2)
    · rw [if_neg h1] at hkv
      by_cases h2 : k < k'
      · rw [if_pos h2] at hkv
        rcases List.mem_cons.mp hkv with rfl | h3
        · exact Or.inl rfl
        · exact Or.inr h3
      · rw [if_neg h2] at hkv
        rcases List.mem_cons.mp hkv with rfl | h3
        · exact Or.inr (List.mem_cons_self _ _)
        · rcases ih kv h3 with h4 | h4
          · exact Or.inl h4
          · exact Or.inr (List.mem_cons_of_mem _ h4)

theorem setRaw_keys_cases {m : Style} {k v : GoStr} :
    ∀ x ∈ (Style.setRaw m k v).map Prod.fst, x = k ∨ x ∈ m.map Prod.fst := by
  intro x hx
  obtain ⟨kv, hkv, rfl⟩ := List.mem_map.mp hx
  rcases setRaw_mem_cases kv hkv with rfl | h2
  · exact Or.inl rfl
  · exact Or.inr (List.mem_map_of_mem _ h2)

theorem setRaw_ne_nil {m : Style} {k v : GoStr} : Style.setRaw m k v ≠ [] := by
  cases m with
  | nil => simp [Style.setRaw]
  | cons kv0 rest =>
    obtain ⟨k', v'⟩ := kv0
    simp only [Style.setRaw]
    by_cases h1 : k = k'
    · simp [h1]
    · rw [if_neg h1]
      by_cases h2 : k < k'
      · simp [h2]
      · simp [h2]

theorem setRaw_sorted {m : Style} (k v : GoStr) (hs : SortedKeys m) :
    SortedKeys (Style.setRaw m k v) := by
  induction m with
  | nil =>
    unfold SortedKeys Style.setRaw
    simp
  | cons kv0 rest ih =>
    obtain ⟨k', v'⟩ := kv0
    unfold SortedKeys at hs ⊢
    rw [List.map_cons, List.sorted_cons] at hs
    obtain ⟨hlt, hrest⟩ := hs
    simp only [Style.setRaw]
    by_cases h1 : k = k'
    · rw [if_pos h1, List.map_cons, List.sorted_cons]
      exact ⟨fun b hb => h1 ▸ hlt b hb, hrest⟩
    · rw [if_neg h1]
      by_cases h2 : k < k'
      · rw [if_pos h2, List.map_cons, List.map_cons, List.sorted_cons, List.sorted_cons]
        refine ⟨?_, hlt, hrest⟩
        intro b hb
        rcases List.mem_cons.mp hb with rfl | hb2
        · exact h2
        · exact lt_trans h2 (hlt b hb2)
      · rw [if_neg h2, List.map_cons, List.sorted_cons]
        have hk'k : k' < k := by
          rcases lt_trichotomy k k' with h | h | h
          · exact absurd h h2
          · exact absurd h h1
          · exact h
        refine ⟨?_, ih hrest⟩
        intro b hb
        rcases setRaw_keys_cases b hb with rfl | hb2
        · exact hk'k
        · exact hlt b hb2

theorem setRaw_append_of_gt {m : Style} {k : GoStr} (v : GoStr)
    (h : ∀ x ∈ m.map Prod.fst, x < k) :
    Style.setRaw m k v = m ++ [(k, v)] := by
  induction m with
  | nil => rfl
  | cons kv0 rest ih =>
    obtain ⟨k', v'⟩ := kv0
    have hk' : k' < k := h k' (by simp)
    simp only [Style.setRaw]
    rw [if_neg (fun he => by subst he; exact absurd hk' (lt_irrefl k)),
        if_neg (fun hlt => absurd hk' (asymm hlt))]
    rw [ih (fun x hx => h x (by simp [hx]))]
    simp

theorem lookup_of_mem_nodup {m : Style} (hnd : (m.map Prod.fst).Nodup) {k v : GoStr}
    (hmem : (k, v) ∈ m) : m.lookup k = some v := by
  induction m with
  | nil => simp at hmem
  | cons kv0 rest ih =>
    obtain ⟨k', v'⟩ := kv0
    rcases List.mem_cons.mp hmem with heq | hmem2
    · injection heq with h1 h2
      subst h1
      subst h2
      simp [List.lookup_cons]
    · have hk : k ≠ k' := by
        intro he
        subst he
        have hmm : k ∈ rest.map Prod.fst := List.mem_map_of_mem _ hmem2
        rw [List.map_cons, List.nodup_cons] at hnd
        exact hnd.1 hmm
      rw [List.lookup_cons]
      rw [List.map_cons, List.nodup_cons] at hnd
      simp only [beq_false_of_ne hk]
      exact ih hnd.2 hmem2

theorem sortedKeys_nodup {m : Style} (hs : SortedKeys m) : (m.map Prod.fst).Nodup :=
  hs.imp ne_of_lt

theorem map_get_eq {m : Style} (hnd : (m.map Prod.fst).Nodup) :
    (m.map Prod.fst).map (fun k => k ++ ':' :: Style.Get m k)
      = m.map (fun kv => kv.1 ++ ':' :: kv.2) := by
  induction m with
  | nil => rfl
  | cons kv0 rest ih =>
    obtain ⟨k, v⟩ := kv0
    simp only [List.map_cons]
    have hget : Style.Get ((k, v) :: rest) k = v := by
      unfold Style.Get
      simp [List.lookup_cons]
    rw [hget]
    congr 1
    rw [List.map_cons, List.nodup_cons] at hnd
    have htail : ∀ k' ∈ rest.map Prod.fst,
        k' ++ ':' :: Style.Get ((k, v) :: rest) k' = k' ++ ':' :: Style.Get rest k' := by
      intro k' hk'
      have hne : k' ≠ k := fun he => hnd.1 (he ▸ hk')
      unfold Style.Get
      rw [List.lookup_cons]
      simp [beq_false_of_ne hne]
    rw [List.map_congr_left htail]
    exact ih hnd.2

theorem encode_eq_of_sorted {m : Style} (hs : SortedKeys m) :
    Style.encode m = List.intercalate [';'] (m.map fun kv => kv.1 ++ ':' :: kv.2) := by
  have hs' : List.Sorted (fun a b : GoStr => a ≤ b) (m.map Prod.fst) :=
    hs.imp (fun h => le_of_lt h)
  simp only [Style.encode]
  rw [List.Sorted.insertionSort_eq hs', map_get_eq (sortedKeys_nodup hs)]

theorem goSplit_pair {k v : GoStr} (hk : ':' ∉ k) (hv : ':' ∉ v) :
    goSplit ':' (k ++ ':' :: v) = [k, v] := by
  have h1 : List.intercalate [':'] [k, v] = k ++ ':' :: v := by
    simp [List.intercalate]
  show List.splitOn ':' (k ++ ':' :: v) = [k, v]
  rw [← h1]
  apply List.splitOn_intercalate
  · intro l hl
    rcases List.mem_cons.mp hl with rfl | hl2
    · exact hk
    · rcases List.mem_cons.mp hl2 with rfl | hl3
      · exact hv
      · simp at hl3
  · simp

theorem goSplit_encode {m : Style} (hs : SortedKeys m) (hne : m ≠ [])
    (hparts : ∀ kv ∈ m, ';' ∉ kv.1 ∧ ';' ∉ kv.2) :
    goSplit ';' (Style.encode m) = m.map (fun kv => kv.1 ++ ':' :: kv.2) := by
  rw [encode_eq_of_sorted hs]
  show List.splitOn ';' _ = _
  apply List.splitOn_intercalate
  · intro l hl
    obtain ⟨kv, hkv, rfl⟩ := List.mem_map.mp hl
    intro hmem
    rcases List.mem_append.mp hmem with h1 | h2
    · exact (hparts kv hkv).1 h1
    · rcases List.mem_cons.mp h2 with h3 | h4
      · exact absurd h3 (by decide)
      · exact (hparts kv hkv).2 h4
  · simpa using hne

/-- What a successful arithmetic-free parse guarantees of every stored key:
trimmed, and free of the space, colon and semicolon characters. -/
def GoodKey (k : GoStr) : Prop :=
  trimSpace k = k ∧ ' ' ∉ k ∧ ':' ∉ k ∧ ';' ∉ k

/-- What a successful arithmetic-free parse guarantees of every stored value:
trimmed, free of colon and semicolon, not an arithmetic form, and a fixed
point of the storing transformation — re-storing it changes nothing. -/
def GoodVal (k v : GoStr) : Prop :=
  trimSpace v = v ∧ ':' ∉ v ∧ ';' ∉ v ∧ isMathVal v = false ∧
    specStoredVal k v = v

theorem specStoredVal_good {k v : GoStr} (hvt : trimSpace v = v) (hvc : ':' ∉ v)
    (hvs : ';' ∉ v) (hop : isMathVal v = false) :
    GoodVal k (specStoredVal k v) := by
  by_cases h0 : v = gs "0"
  · subst h0
    have hval : specStoredVal k (gs "0") = gs "0" := by
      unfold specStoredVal
      rw [if_pos rfl]
    rw [hval]
    exact ⟨by decide, by decide, by decide, by decide, hval⟩
  · by_cases hnum : NumericTok v
    · by_cases hnl : nonLengthNumerics.contains k = true
      · have hval : specStoredVal k v = v := by
          unfold specStoredVal
          rw [if_neg h0, if_pos hnum, if_pos hnl]
        rw [hval]
        exact ⟨hvt, hvc, hvs, hop, hval⟩
      · have hval : specStoredVal k v = v ++ gs "px" := by
          unfold specStoredVal
          rw [if_neg h0, if_pos hnum, if_neg hnl]
        rw [hval]
        have hnosp : ' ' ∉ v ++ gs "px" := by
          intro hmem
          rcases List.mem_append.mp hmem with h1 | h1
          · rcases numericTok_chars hnum ' ' h1 with h2 | h2 | h2
            · exact absurd h2 (by decide)
            · exact absurd h2 (by decide)
            · exact absurd h2 (by decide)
          · exact absurd h1 (by decide)
        refine ⟨?_, ?_, ?_, ?_, ?_⟩
        · exact trim_append_no_space hvt (by decide) (by decide)
        · intro hmem
          rcases List.mem_append.mp hmem with h1 | h1
          · exact hvc h1
          · exact absurd h1 (by decide)
        · intro hmem
          rcases List.mem_append.mp hmem with h1 | h1
          · exact hvs h1
          · exact absurd h1 (by decide)
        · exact isMathVal_eq_false_of_no_space hnosp
        · -- the appended value is itself a fixed point: it is neither "0"
          -- nor numeric (it contains the letter p)
          have hp : 'p' ∈ v ++ gs "px" := by
            rw [List.mem_append]
            right
            decide
          have hne0 : v ++ gs "px" ≠ gs "0" := by
            intro he
            have hlen := congrArg List.length he
            simp [gs] at hlen
          have hnn : ¬NumericTok (v ++ gs "px") := by
            intro hcon
            rcases numericTok_chars hcon 'p' hp with h2 | h2 | h2
            · exact absurd h2 (by decide)
            · exact absurd h2 (by decide)
            · exact absurd h2 (by decide)
          unfold specStoredVal
          rw [if_neg hne0, if_neg hnn]
    · have hval : specStoredVal k v = v := by
        unfold specStoredVal
        rw [if_neg h0, if_neg hnum]
      rw [hval]
      exact ⟨hvt, hvc, hvs, hop, hval⟩

theorem setStringLoop_good (segs : List GoStr) :
    ∀ m ch r, Style.setStringLoop m ch segs = some r → r.err = false →
      (∀ seg ∈ segs, isMathVal (trimSpace ((goSplit ':' seg).getD 1 [])) = false) →
      (∀ seg ∈ segs, ';' ∉ seg) →
      SortedKeys m → (∀ kv ∈ m, GoodKey kv.1 ∧ GoodVal kv.1 kv.2) →
      (SortedKeys r.map ∧ ∀ kv ∈ r.map, GoodKey kv.1 ∧ GoodVal kv.1 kv.2) ∧
        ((segs ≠ [] ∨ m ≠ []) → r.map ≠ []) := by
  induction segs with
  | nil =>
    intro m ch r h herr _ _ hsort hgood
    unfold Style.setStringLoop at h
    cases h
    refine ⟨⟨hsort, hgood⟩, ?_⟩
    intro hne
    rcases hne with h1 | h2
    · exact absurd rfl h1
    · exact h2
  | cons seg rest ih =>
    intro m ch r h herr hna hsemi hsort hgood
    unfold Style.setStringLoop at h
    by_cases hb : (goSplit ':' seg).length ≠ 2
    · rw [if_pos hb] at h
      cases h
      simp at herr
    · rw [if_neg hb] at h
      rcases hsc : Style.SetChanged m (trimSpace ((goSplit ':' seg).getD 0 []))
          (trimSpace ((goSplit ':' seg).getD 1 [])) with _ | r'
      · simp only [hsc] at h
        exact Option.noConfusion h
      · simp only [hsc] at h
        by_cases herr' : r'.err = true
        · rw [if_pos herr'] at h
          cases h
          simp at herr
        · rw [if_neg herr'] at h
          have hop : isMathVal (trimSpace ((goSplit ':' seg).getD 1 [])) = false :=
            hna seg (List.mem_cons_self _ _)
          have hsp : ' ' ∉ trimSpace ((goSplit ':' seg).getD 0 []) := by
            intro hmem
            exact herr' ((setChanged_err_iff m _ _ r' hsc).1.mpr (Or.inl hmem))
          have hstore := setChangedStores m (trimSpace ((goSplit ':' seg).getD 0 []))
            (trimSpace ((goSplit ':' seg).getD 1 [])) hsp hop
          have hr' : r' = ⟨(Style.set m (trimSpace ((goSplit ':' seg).getD 0 []))
              (specStoredVal (trimSpace ((goSplit ':' seg).getD 0 []))
                (trimSpace ((goSplit ':' seg).getD 1 [])))).1, false,
              (Style.set m (trimSpace ((goSplit ':' seg).getD 0 []))
                (specStoredVal (trimSpace ((goSplit ':' seg).getD 0 []))
                  (trimSpace ((goSplit ':' seg).getD 1 [])))).2⟩ :=
            Option.some.inj (hsc.symm.trans hstore)
          -- the two split fields of this segment
          push_neg at hb
          rcases hbs : goSplit ':' seg with _ | ⟨b0, bs⟩
          · rw [hbs] at hb
            simp at hb
          · rcases bs with _ | ⟨b1, bs2⟩
            · rw [hbs] at hb
              simp at hb
            · rcases bs2 with _ | ⟨b2, bs3⟩
              · -- the well-formed case: exactly two fields
                have hm0 : b0 ∈ goSplit ':' seg := by
                  rw [hbs]
                  simp
                have hm1 : b1 ∈ goSplit ':' seg := by
                  rw [hbs]
                  simp
                obtain ⟨hc0, hsub0⟩ := splitOn_part_subset b0 hm0
                obtain ⟨hc1, hsub1⟩ := splitOn_part_subset b1 hm1
                have hg0 : (goSplit ':' seg).getD 0 [] = b0 := by
                  rw [hbs]
                  rfl
                have hg1 : (goSplit ':' seg).getD 1 [] = b1 := by
                  rw [hbs]
                  rfl
                have hsemiseg : ';' ∉ seg := hsemi seg (List.mem_cons_self _ _)
                have hkey : GoodKey (trimSpace ((goSplit ':' seg).getD 0 [])) := by
                  refine ⟨trimSpace_idem _, hsp, ?_, ?_⟩
                  · intro hcm
                    rw [hg0] at hcm
                    exact hc0 (mem_trimSpace hcm)
                  · intro hcm
                    rw [hg0] at hcm
                    exact hsemiseg (hsub0 _ (mem_trimSpace hcm))
                have hval : GoodVal (trimSpace ((goSplit ':' seg).getD 0 []))
                    (specStoredVal (trimSpace ((goSplit ':' seg).getD 0 []))
                      (trimSpace ((goSplit ':' seg).getD 1 []))) := by
                  apply specStoredVal_good (trimSpace_idem _)
                  · intro hcm
                    rw [hg1] at hcm
                    exact hc1 (mem_trimSpace hcm)
                  · intro hcm
                    rw [hg1] at hcm
                    exact hsemiseg (hsub1 _ (mem_trimSpace hcm))
                  · exact hop
                -- apply the induction hypothesis to the updated map
                have hmap' : r'.map = Style.setRaw m (trimSpace ((goSplit ':' seg).getD 0 []))
                    (specStoredVal (trimSpace ((goSplit ':' seg).getD 0 []))
                      (trimSpace ((goSplit ':' seg).getD 1 []))) := by
                  rw [hr']
                  rfl
                have hsort' : SortedKeys r'.map := by
                  rw [hmap']
                  exact setRaw_sorted _ _ hsort
                have hgood' : ∀ kv ∈ r'.map, GoodKey kv.1 ∧ GoodVal kv.1 kv.2 := by
                  rw [hmap']
                  intro kv hkv
                  rcases setRaw_mem_cases kv hkv with rfl | h2
                  · exact ⟨hkey, hval⟩
                  · exact hgood kv h2
                have hrec := ih r'.map (ch || r'.changed) r h herr
                  (fun s hs => hna s (List.mem_cons_of_mem _ hs))
                  (fun s hs => hsemi s (List.mem_cons_of_mem _ hs)) hsort' hgood'
                refine ⟨hrec.1, ?_⟩
                intro _
                rcases hrest : rest with _ | _
                · subst hrest
                  unfold Style.setStringLoop at h
                  cases h
                  show r'.map ≠ []
                  rw [hmap']
                  exact setRaw_ne_nil
                · apply hrec.2
                  left
                  rw [hrest]
                  simp
              · rw [hbs] at hb
                simp at hb

theorem setStringLoop_reparse (l₂ : List (GoStr × GoStr)) :
    ∀ (acc : Style) (ch : Bool),
      SortedKeys (acc ++ l₂) →
      (∀ kv ∈ l₂, GoodKey kv.1 ∧ GoodVal kv.1 kv.2) →
      ∃ ch', Style.setStringLoop acc ch (l₂.map (fun kv => kv.1 ++ ':' :: kv.2))
        = some ⟨ch', false, acc ++ l₂⟩ := by
  induction l₂ with
  | nil =>
    intro acc ch _ _
    refine ⟨ch, ?_⟩
    unfold Style.setStringLoop
    simp
  | cons kv l₂' ih =>
    intro acc ch hsort hgood
    obtain ⟨k, v⟩ := kv
    obtain ⟨hkgood, hvgood⟩ := hgood (k, v) (List.mem_cons_self _ _)
    obtain ⟨hkt, hksp, hkc, hks⟩ := hkgood
    obtain ⟨hvt, hvc, hvs, hvm, hvfix⟩ := hvgood
    dsimp only at hkt hksp hkc hks hvt hvc hvs hvm hvfix
    have hsplit : goSplit ':' (k ++ ':' :: v) = [k, v] := goSplit_pair hkc hvc
    have hkeylt : ∀ x ∈ acc.map Prod.fst, x < k := by
      intro x hx
      have hp : List.Pairwise (fun a b : GoStr => a < b)
          (List.map Prod.fst (acc ++ (k, v) :: l₂')) := hsort
      rw [List.map_append, List.map_cons, List.pairwise_append] at hp
      exact hp.2.2 x hx k (List.mem_cons_self _ _)
    have hsort' : SortedKeys ((acc ++ [(k, v)]) ++ l₂') := by
      rw [List.append_assoc]
      exact hsort
    obtain ⟨ch'', hrec⟩ := ih (acc ++ [(k, v)]) (ch || (Style.set acc k v).1) hsort'
      (fun kv2 hkv2 => hgood kv2 (List.mem_cons_of_mem _ hkv2))
    refine ⟨ch'', ?_⟩
    rw [List.map_cons]
    show (let b := goSplit ':' (k ++ ':' :: v)
        if b.length ≠ 2 then some ⟨ch, true, acc⟩
        else
          match Style.SetChanged acc (trimSpace (b.getD 0 [])) (trimSpace (b.getD 1 [])) with
          | none => none
          | some r =>
            if r.err = true then some ⟨ch, true, r.map⟩
            else Style.setStringLoop r.map (ch || r.changed)
              (l₂'.map (fun kv => kv.1 ++ ':' :: kv.2)))
      = some ⟨ch'', false, acc ++ (k, v) :: l₂'⟩
    simp only [hsplit]
    rw [if_neg (fun hcc => hcc rfl)]
    have hg0 : ([k, v] : List GoStr).getD 0 [] = k := rfl
    have hg1 : ([k, v] : List GoStr).getD 1 [] = v := rfl
    rw [hg0, hg1, hkt, hvt]
    rw [setChangedStores acc k v hksp hvm, hvfix]
    have hmap : (Style.set acc k v).2 = acc ++ [(k, v)] := by
      show Style.setRaw acc k v = acc ++ [(k, v)]
      exact setRaw_append_of_gt v hkeylt
    show Style.setStringLoop (Style.set acc k v).2 (ch || (Style.set acc k v).1)
        (l₂'.map (fun kv => kv.1 ++ ':' :: kv.2)) = some ⟨ch'', false, acc ++ (k, v) :: l₂'⟩
    rw [hmap, hrec, List.append_assoc]
    rfl

/-- No segment of the input takes the in-place arithmetic path. -/
def noArith (text : GoStr) : Prop :=
  ∀ seg ∈ goSplit ';' text, isMathVal (trimSpace ((goSplit ':' seg).getD 1 [])) = false

instance (text : GoStr) : Decidable (noArith text) :=
  List.decidableBAll _ _

/-- C2 (amended): for every style map built by a successful `Style.SetString`
call on an input none of whose segments takes the in-place arithmetic path,
encoding the map and parsing the encoded string back into a fresh map
succeeds and yields a property map equal to the original.  The original
claim's inclusion of the arithmetic path is refuted by `C2_counterexample`. -/
theorem C2_roundtrip (s : Style) (text : GoStr) (r : StyleOut)
    (h : Style.SetString s text = some r) (herr : r.err = false)
    (hna : noArith text) :
    ∃ ch', Style.SetString [] (Style.encode r.map) = some ⟨ch', false, r.map⟩ := by
  have hsegs : ∀ seg ∈ goSplit ';' text, ';' ∉ seg :=
    fun seg hs => (splitOn_part_subset seg hs).1
  have hloop : Style.setStringLoop [] false (goSplit ';' text) = some r := h
  have hinv := setStringLoop_good (goSplit ';' text) [] false r hloop herr hna hsegs
    (by unfold SortedKeys; simp) (by simp)
  obtain ⟨⟨hsort, hentries⟩, hne'⟩ := hinv
  have hsegne : goSplit ';' text ≠ [] := List.splitOnP_ne_nil _ _
  have hmne : r.map ≠ [] := hne' (Or.inl hsegne)
  have hssplit : goSplit ';' (Style.encode r.map)
      = r.map.map (fun kv => kv.1 ++ ':' :: kv.2) :=
    goSplit_encode hsort hmne (fun kv hkv =>
      ⟨(hentries kv hkv).1.2.2.2, (hentries kv hkv).2.2.2.1⟩)
  obtain ⟨ch', hloop2⟩ := setStringLoop_reparse r.map [] false (by simpa using hsort)
    (fun kv hkv => hentries kv hkv)
  refine ⟨ch', ?_⟩
  show Style.setStringLoop [] false (goSplit ';' (Style.encode r.map)) = _
  rw [hssplit]
  simpa using hloop2

/-- Witness for C2 on a two-property style string. -/
theorem C2_roundtrip_witness :
    ∃ ch', Style.SetString [] (Style.encode
      ([(gs "height", gs "9em"), (gs "width", gs "100%")] : Style))
      = some ⟨ch', false, [(gs "height", gs "9em"), (gs "width", gs "100%")]⟩ :=
  C2_roundtrip [] (gs "height: 9em; width: 100%")
    ⟨true, false, [(gs "height", gs "9em"), (gs "width", gs "100%")]⟩
    (by decide) (by decide) (by decide)

/-- C2 counterexample: `"a:0;a:+ 2"` parses successfully — the arithmetic on
the zero base stores the bare number `"2"` without a unit — but the encoding
`"a:2"` re-parses with `px` appended, so the round trip changes the map. -/
theorem C2_counterexample :
    Style.SetString [] (gs "a:0;a:+ 2") = some ⟨true, false, [(gs "a", gs "2")]⟩ ∧
    Style.SetString [] (Style.encode [(gs "a", gs "2")]) =
      some ⟨true, false, [(gs "a", gs "2px")]⟩ ∧
    [(gs "a", gs "2px")] ≠ [(gs "a", gs "2")] := by
  refine ⟨?_, ?_, ?_⟩ <;> decide

/-! ## Claim C6: the kebab-case to camelCase codec (`ToDataKey`) -/

/-- Go `strings.Title`'s word-separator test, on the ASCII range (the codec
validates its inputs down to `[a-z0-9]` before titling): everything except
letters, digits and the underscore separates words. -/
def isSeparator (c : Char) : Bool :=
  !(c.isDigit || c.isLower || c.isUpper || c = '_')

/-- The character-mapping loop of `strings.Title`, threading the previous
rune; `unicode.ToTitle` coincides with `Char.toUpper` on ASCII. -/
def goTitleGo (prev : Char) : GoStr → GoStr
  | [] => []
  | c :: rest => (if isSeparator prev then c.toUpper else c) :: goTitleGo c rest

/-- Go `strings.Title`: title-case every letter that begins a word. -/
def goTitle (s : GoStr) : GoStr := goTitleGo ' ' s

/-- The loop of `ToDataKey` over the `-`-separated pieces: a piece of length
exactly one is an error; pieces after the first are passed through
`strings.Title`. -/
def toDataKeyLoop (first : Bool) (acc : GoStr) : List GoStr → Except Unit GoStr
  | [] => Except.ok acc
  | p :: rest =>
    if p.length = 1 then Except.error ()
    else toDataKeyLoop false (acc ++ (if first then p else goTitle p)) rest

/-- `ToDataKey`: reject on the regexp `[A-Z]|[^a-z0-9-]` (any character
outside `[a-z0-9-]`, uppercase being a special case of that), then join the
`-`-separated pieces, title-casing every piece after the first. -/
def ToDataKey (s : GoStr) : Except Unit GoStr :=
  if s.any (fun c => !(c.isLower || c.isDigit || c = '-')) then Except.error ()
  else toDataKeyLoop true [] (goSplit '-' s)

deriving instance DecidableEq for Except

/-- Claim-side description: capitalize the first letter of a segment. -/
def upFirst : GoStr → GoStr
  | [] => []
  | c :: rest => c.toUpper :: rest

theorem goTitleGo_id (rest : GoStr) : ∀ prev, isSeparator prev = false →
    (∀ c ∈ rest, isSeparator c = false) → goTitleGo prev rest = rest := by
  induction rest with
  | nil => intro prev _ _; rfl
  | cons c t ih =>
    intro prev hprev hall
    unfold goTitleGo
    rw [if_neg (by rw [hprev]; simp)]
    rw [ih c (hall c (List.mem_cons_self _ _)) (fun x hx => hall x (List.mem_cons_of_mem _ hx))]

theorem goTitle_eq_upFirst {p : GoStr} (h : ∀ c ∈ p, c.isLower = true ∨ c.isDigit = true) :
    goTitle p = upFirst p := by
  cases p with
  | nil => rfl
  | cons c rest =>
    unfold goTitle goTitleGo upFirst
    rw [if_pos (by decide)]
    have hcsep : isSeparator c = false := by
      unfold isSeparator
      rcases h c (List.mem_cons_self _ _) with h1 | h1 <;> simp [h1]
    rw [goTitleGo_id rest c hcsep]
    intro x hx
    unfold isSeparator
    rcases h x (List.mem_cons_of_mem _ hx) with h1 | h1 <;> simp [h1]

theorem toDataKeyLoop_error_iff (ps : List GoStr) :
    ∀ first acc, toDataKeyLoop first acc ps = Except.error () ↔
      ∃ p ∈ ps, p.length = 1 := by
  induction ps with
  | nil =>
    intro first acc
    constructor
    · intro h
      exact absurd h (by unfold toDataKeyLoop; simp)
    · rintro ⟨p, hp, _⟩
      simp at hp
  | cons p rest ih =>
    intro first acc
    unfold toDataKeyLoop
    by_cases hl : p.length = 1
    · rw [if_pos hl]
      constructor
      · intro _
        exact ⟨p, List.mem_cons_self _ _, hl⟩
      · intro _
        rfl
    · rw [if_neg hl]
      rw [ih false (acc ++ (if first then p else goTitle p))]
      constructor
      · rintro ⟨q, hq, hq1⟩
        exact ⟨q, List.mem_cons_of_mem _ hq, hq1⟩
      · rintro ⟨q, hq, hq1⟩
        rcases List.mem_cons.mp hq with rfl | hq2
        · exact absurd hq1 hl
        · exact ⟨q, hq2, hq1⟩

theorem toDataKeyLoop_ok (ps : List GoStr) :
    ∀ acc, (∀ p ∈ ps, p.length ≠ 1) →
      toDataKeyLoop false acc ps = Except.ok (acc ++ (ps.map goTitle).flatten) := by
  induction ps with
  | nil =>
    intro acc _
    unfold toDataKeyLoop
    simp
  | cons p rest ih =>
    intro acc h
    unfold toDataKeyLoop
    rw [if_neg (h p (List.mem_cons_self _ _))]
    show toDataKeyLoop false (acc ++ goTitle p) rest = _
    rw [ih (acc ++ goTitle p) (fun q hq => h q (List.mem_cons_of_mem _ hq))]
    simp

/-- C6 (amended): `ToDataKey` errors exactly on inputs containing a character
outside `[a-z0-9-]` (which covers every uppercase letter) or containing a
hyphen-delimited segment of length exactly one — zero-length segments, from
consecutive, leading or trailing hyphens, are allowed and contribute nothing;
on success the result is the first segment followed by the remaining segments
each with its first letter capitalized, hyphens removed. -/
theorem C6_toDataKey (s : GoStr) :
    (ToDataKey s = Except.error () ↔
      (∃ c ∈ s, ¬(c.isLower = true ∨ c.isDigit = true ∨ c = '-')) ∨
        ∃ p ∈ goSplit '-' s, p.length = 1) ∧
    ∀ out, ToDataKey s = Except.ok out →
      out = (goSplit '-' s).headI ++ ((goSplit '-' s).tail.map upFirst).flatten := by
  by_cases hbad : s.any (fun c => !(c.isLower || c.isDigit || c = '-')) = true
  · have herr : ToDataKey s = Except.error () := by
      unfold ToDataKey
      rw [if_pos hbad]
    constructor
    · rw [herr]
      constructor
      · intro _
        left
        obtain ⟨c, hc, hcp⟩ := List.any_eq_true.mp hbad
        refine ⟨c, hc, ?_⟩
        intro hcon
        rcases hcon with h1 | h1 | h1 <;> simp [h1] at hcp
      · intro _
        rfl
    · intro out hout
      rw [herr] at hout
      exact absurd hout (by simp)
  · have hgoodc : ∀ c ∈ s, c.isLower = true ∨ c.isDigit = true ∨ c = '-' := by
      intro c hc
      by_contra hcon
      apply hbad
      refine List.any_eq_true.mpr ⟨c, hc, ?_⟩
      push_neg at hcon
      obtain ⟨h1, h2, h3⟩ := hcon
      simp [h1, h2, h3]
    have hkey : ToDataKey s = toDataKeyLoop true [] (goSplit '-' s) := by
      unfold ToDataKey
      rw [if_neg hbad]
    constructor
    · rw [hkey, toDataKeyLoop_error_iff]
      constructor
      · intro h
        exact Or.inr h
      · rintro (⟨c, hc, hcp⟩ | h)
        · exact absurd (hgoodc c hc) hcp
        · exact h
    · intro out hout
      rw [hkey] at hout
      rcases hps : goSplit '-' s with _ | ⟨p0, rest⟩
      · exact absurd hps (List.splitOnP_ne_nil _ _)
      · rw [hps] at hout
        unfold toDataKeyLoop at hout
        by_cases hl : p0.length = 1
        · rw [if_pos hl] at hout
          exact absurd hout (by simp)
        · rw [if_neg hl] at hout
          have hout' : toDataKeyLoop false ([] ++ p0) rest = Except.ok out := hout
          have hrest1 : ∀ p ∈ rest, p.length ≠ 1 := by
            intro p hp hcon
            have herr2 : toDataKeyLoop false ([] ++ p0) rest = Except.error () :=
              (toDataKeyLoop_error_iff rest false ([] ++ p0)).mpr ⟨p, hp, hcon⟩
            rw [herr2] at hout'
            exact absurd hout' (by simp)
          rw [toDataKeyLoop_ok rest ([] ++ p0) hrest1] at hout'
          have hout2 : out = p0 ++ (rest.map goTitle).flatten := by
            have := Except.ok.inj hout'
            simpa using this.symm
          have hmapeq : rest.map goTitle = rest.map upFirst := by
            apply List.map_congr_left
            intro p hp
            apply goTitle_eq_upFirst
            intro c hc
            have hmem : p ∈ goSplit '-' s := by
              rw [hps]
              exact List.mem_cons_of_mem _ hp
            obtain ⟨hnh, hsub⟩ := splitOn_part_subset p hmem
            rcases hgoodc c (hsub c hc) with h1 | h1 | h1
            · exact Or.inl h1
            · exact Or.inr h1
            · exact absurd (h1 ▸ hc) hnh
          rw [hout2, hmapeq]
          rfl

/-- Witness for C6: `"this-and-that"` camel-cases to `"thisAndThat"`. -/
theorem C6_toDataKey_witness :
    (gs "thisAndThat" : GoStr) = (goSplit '-' (gs "this-and-that")).headI ++
      (((goSplit '-' (gs "this-and-that")).tail.map upFirst).flatten) :=
  (C6_toDataKey (gs "this-and-that")).2 (gs "thisAndThat") (by decide)

/-- C6 counterexample: the claim says a zero-length segment (here from the
leading hyphen) is an error; the code only rejects segments of length exactly
one, so `"-ab"` succeeds and yields `"Ab"`. -/
theorem C6_counterexample :
    (goSplit '-' (gs "-ab")).headI.length = 0 ∧
    ToDataKey (gs "-ab") = Except.ok (gs "Ab") := by
  constructor
  · decide
  · decide

/-! ## WordList utilities (class.go) and claim C8 -/

/-- Go `strings.Join`. -/
def goJoin (sep : GoStr) (xs : List GoStr) : GoStr := List.intercalate sep xs

/-- The appending loop of `MergeWords`: each new word is looked up in the
accumulated array and appended when absent. -/
def mergeWordsLoop (wordArray : List GoStr) : List GoStr → List GoStr
  | [] => wordArray
  | s :: rest =>
    if wordArray.contains s then mergeWordsLoop wordArray rest
    else mergeWordsLoop (wordArray ++ [s]) rest

/-- `MergeWords`: append the space-separated words of `newValues` that are
not already among those of `originalValues`, and rejoin with single spaces. -/
def MergeWords (originalValues newValues : GoStr) : GoStr :=
  goJoin (gs " ") (mergeWordsLoop (goFields originalValues) (goFields newValues))

/-- `HasWord`: membership among the space-separated words. -/
def HasWord (haystack needle : GoStr) : Bool := (goFields haystack).contains needle

/-- `RemoveWords`: keep the words of `originalValues` not listed in
`removeValues`, rebuilt with trailing spaces and trimmed. -/
def RemoveWords (originalValues removeValues : GoStr) : GoStr :=
  trimSpace (((goFields originalValues).filter
    (fun s => !(goFields removeValues).contains s)).foldl (fun r s => r ++ s ++ gs " ") [])

/-- `RemoveClassesWithPrefix`: keep the words not starting with `pre`. -/
def RemoveClassesWithPrefix (cls pre : GoStr) : GoStr :=
  trimSpace (((goFields cls).filter (fun s => !hasPre pre s)).foldl
    (fun r s => r ++ s ++ gs " ") [])

/-- Claim-side reading of the merge: the tokens of the additions not already
present among the tokens collected so far, in order. -/
def addNew (present : List GoStr) : List GoStr → List GoStr
  | [] => []
  | t :: ts => if present.contains t then addNew present ts
               else t :: addNew (present ++ [t]) ts

theorem mergeWordsLoop_eq (ts : List GoStr) :
    ∀ ws, mergeWordsLoop ws ts = ws ++ addNew ws ts := by
  induction ts with
  | nil =>
    intro ws
    unfold mergeWordsLoop addNew
    simp
  | cons t ts ih =>
    intro ws
    unfold mergeWordsLoop addNew
    by_cases h : ws.contains t = true
    · rw [if_pos h, if_pos h]
      exact ih ws
    · rw [if_neg h, if_neg h]
      rw [ih (ws ++ [t])]
      simp

/-- C8: `MergeWords` returns exactly the whitespace-separated tokens of the
original string, in their original order, followed by those tokens of the
additions not already present (each appended token counting as present from
then on), joined by single spaces; any run of whitespace separates tokens and
leading/trailing whitespace is ignored (`goFields`).  The claim's concrete
order-preservation example is included. -/
theorem C8_mergeWords (originalValues newValues : GoStr) :
    MergeWords originalValues newValues =
      List.intercalate (gs " ")
        (goFields originalValues ++ addNew (goFields originalValues) (goFields newValues)) ∧
    MergeWords (gs "myClass1 myClass2") (gs "myClass2 myClass1") = gs "myClass1 myClass2" ∧
    MergeWords (gs " a  b ") (gs "b  c ") = gs "a b c" := by
  refine ⟨?_, by decide, by decide⟩
  unfold MergeWords goJoin
  rw [mergeWordsLoop_eq]

/-! ## Attribute store (attr.go)

`Attributes` is Go's `map[string]string`; the list order stands in for the
map's (unspecified) iteration order.  Assignment updates an existing key in
place and appends new keys. -/

abbrev Attributes := List (GoStr × GoStr)

/-- `FalseValue`, the reserved sentinel removal value. -/
def FalseValue : GoStr := gs "**GORADD-FALSE**"

/-- Result of the fallible `Attributes` mutators: `(changed, err)` plus the
store as it stands after the call. -/
structure AttrsOut where
  changed : Bool
  err : Bool
  attrs : Attributes
deriving Repr, DecidableEq

/-- `Attributes.Has`. -/
def Attributes.Has (a : Attributes) (attr : GoStr) : Bool := (a.lookup attr).isSome

/-- `Attributes.Get`: zero value `""` when absent. -/
def Attributes.Get (a : Attributes) (attr : GoStr) : GoStr := (a.lookup attr).getD []

/-- Go map assignment `a[k] = v`: update in place or append. -/
def attrsSetRaw : Attributes → GoStr → GoStr → Attributes
  | [], k, v => [(k, v)]
  | kv :: rest, k, v => if kv.1 = k then (k, v) :: rest else kv :: attrsSetRaw rest k v

/-- `Attributes.set` (the unexported raw set with change reporting). -/
def Attributes.set (a : Attributes) (k v : GoStr) : Bool × Attributes :=
  let changed := match a.lookup k with
    | none => true
    | some oldVal => decide (oldVal ≠ v)
  (changed, attrsSetRaw a k v)

/-- `Attributes.Remove`: Go `delete`. -/
def Attributes.Remove (a : Attributes) (attr : GoStr) : Attributes :=
  a.filter (fun kv => kv.1 ≠ attr)

/-- `Attributes.RemoveAttribute`: delete and report whether the attribute
existed. -/
def Attributes.RemoveAttribute (a : Attributes) (name : GoStr) : Bool × Attributes :=
  if Attributes.Has a name then (true, Attributes.Remove a name) else (false, a)

/-- `Attributes.StyleString`. -/
def Attributes.StyleString (a : Attributes) : GoStr := Attributes.Get a (gs "style")

/-- `Attributes.StyleMap`: parse the `style` value into a fresh `Style`,
ignoring the parse error (the partially filled map is kept, as in the
source); a panic inside the style arithmetic propagates. -/
def Attributes.StyleMap (a : Attributes) : Option Style :=
  (Style.SetString [] (Attributes.StyleString a)).map StyleOut.map

/-- `Attributes.SetIDChanged`: empty removes, an id with spaces is an error,
anything else is a plain set. -/
def Attributes.SetIDChanged (a : Attributes) (i : GoStr) : AttrsOut :=
  if i = [] then
    let r := Attributes.RemoveAttribute a (gs "id")
    ⟨r.1, false, r.2⟩
  else if ' ' ∈ i then ⟨false, true, a⟩
  else
    let r := Attributes.set a (gs "id") i
    ⟨r.1, false, r.2⟩

/-- `Attributes.AddValuesChanged`: merge space-separated values into an
attribute, reporting change. -/
def Attributes.AddValuesChanged (a : Attributes) (attrKey values : GoStr) : Bool × Attributes :=
  if values = [] then (false, a)
  else if Attributes.Has a attrKey then
    let attrValue := Attributes.Get a attrKey
    let newValues := MergeWords attrValue values
    if newValues ≠ attrValue then (true, (Attributes.set a attrKey newValues).2)
    else (false, a)
  else (true, (Attributes.set a attrKey values).2)

/-- `Attributes.AddClassChanged`. -/
def Attributes.AddClassChanged (a : Attributes) (v : GoStr) : Bool × Attributes :=
  Attributes.AddValuesChanged a (gs "class") v

/-- `Attributes.RemoveClass`. -/
def Attributes.RemoveClass (a : Attributes) (v : GoStr) : Bool × Attributes :=
  if Attributes.Has a (gs "class") then
    let oldClass := Attributes.Get a (gs "class")
    let newClass := RemoveWords oldClass v
    if oldClass ≠ newClass then (true, (Attributes.set a (gs "class") newClass).2)
    else (false, a)
  else (false, a)

/-- `Attributes.SetClassChanged`: empty removes; `"+ "` appends via the word
merge; `"- "` removes words; otherwise replace. -/
def Attributes.SetClassChanged (a : Attributes) (value : GoStr) : Bool × Attributes :=
  if value = [] then Attributes.RemoveAttribute a (gs "class")
  else if hasPre (gs "+ ") value then Attributes.AddClassChanged a (value.drop 2)
  else if hasPre (gs "- ") value then Attributes.RemoveClass a (value.drop 2)
  else Attributes.set a (gs "class") value

/-- Go's `\w` class on the ASCII range. -/
def isWordChar (c : Char) : Bool := c.isDigit || c.isLower || c.isUpper || c = '_'

def hasDoubleUpper : GoStr → Bool
  | [] => false
  | [_] => false
  | a :: b :: rest => (a.isUpper && b.isUpper) || hasDoubleUpper (b :: rest)

/-- `ToDataAttr`: reject on `^[^a-z]|[A-Z][A-Z]|\W`; otherwise insert a
hyphen before each uppercase letter, lowercased, strip one leading hyphen and
trim. -/
def ToDataAttr (s : GoStr) : Except Unit GoStr :=
  if (match s with | [] => false | c :: _ => !c.isLower) || hasDoubleUpper s ||
      s.any (fun c => !isWordChar c) then Except.error ()
  else
    let s2 := (s.map (fun c => if c.isUpper then ['-', c.toLower] else [c])).flatten
    Except.ok (trimSpace (match s2 with | '-' :: r => r | _ => s2))

/-- `Attributes.SetDataChanged`: validate the camelCase name, re-encode it as
`data-<kebab>` and set. -/
def Attributes.SetDataChanged (a : Attributes) (name v : GoStr) : AttrsOut :=
  if ' ' ∈ name ∨ '!' ∈ name ∨ '$' ∈ name then ⟨false, true, a⟩
  else
    match ToDataAttr name with
    | Except.error _ => ⟨false, true, a⟩
    | Except.ok suffix =>
      let r := Attributes.set a (gs "data-" ++ suffix) v
      ⟨r.1, false, r.2⟩

/-- `Attributes.SetChanged`: names with spaces are errors; the sentinel
removal value deletes; `style`, `id`, `class` and `data-*` names dispatch to
their special setters; everything else is a plain set.  The `style` branch
compares the parsed maps structurally (on the canonical sorted representation
that is list equality), then stores the canonical encoding. -/
def Attributes.SetChanged (a : Attributes) (name v : GoStr) : Option AttrsOut :=
  if ' ' ∈ name then some ⟨false, true, a⟩
  else if v = FalseValue then
    let r := Attributes.RemoveAttribute a name
    some ⟨r.1, false, r.2⟩
  else if name = gs "style" then
    match Style.SetString [] v with
    | none => none
    | some sr =>
      if sr.err then some ⟨false, true, a⟩
      else
        match Attributes.StyleMap a with
        | none => none
        | some oldStyles =>
          if oldStyles ≠ sr.map then
            some ⟨true, false, attrsSetRaw a (gs "style") (Style.encode sr.map)⟩
          else some ⟨false, false, a⟩
  else if name = gs "id" then some (Attributes.SetIDChanged a v)
  else if name = gs "class" then
    let r := Attributes.SetClassChanged a v
    some ⟨r.1, false, r.2⟩
  else if hasPre (gs "data-") name then some (Attributes.SetDataChanged a (name.drop 5) v)
  else
    let r := Attributes.set a name v
    some ⟨r.1, false, r.2⟩

/-- `Attributes.Set`, the chaining wrapper: a validation error is a Go
`panic`, modelled as `none` like the panics it can forward. -/
def Attributes.Set (a : Attributes) (name v : GoStr) : Option Attributes :=
  match Attributes.SetChanged a name v with
  | none => none
  | some r => if r.err then none else some r.attrs

/-- The loop of `Attributes.Merge`: per key plain overwrite, except `style`
(merged through the style model) and `class` (merged as word lists) when the
key is already present. -/
def Attributes.mergeLoop (acc : Attributes) : List (GoStr × GoStr) → Option Attributes
  | [] => some acc
  | (k, v) :: rest =>
    if k = gs "style" then
      match acc.lookup k with
      | some v2 =>
        match MergeStyleStrings v2 v with
        | none => none
        | some v' => Attributes.mergeLoop (attrsSetRaw acc k v') rest
      | none => Attributes.mergeLoop (attrsSetRaw acc k v) rest
    else if k = gs "class" then
      match acc.lookup k with
      | some v2 => Attributes.mergeLoop (attrsSetRaw acc k (MergeWords v2 v)) rest
      | none => Attributes.mergeLoop (attrsSetRaw acc k v) rest
    else Attributes.mergeLoop (attrsSetRaw acc k v) rest

/-- `Attributes.Merge`. -/
def Attributes.Merge (a aIn : Attributes) : Option Attributes :=
  Attributes.mergeLoop a aIn

/-- `Attributes.Copy`: a fresh store merged from the old one. -/
def Attributes.Copy (a : Attributes) : Option Attributes :=
  Attributes.Merge [] a

/-- `Attributes.Override`: plain per-key overwrite. -/
def Attributes.Override (a overrides : Attributes) : Attributes :=
  overrides.foldl (fun acc kv => attrsSetRaw acc kv.1 kv.2) a

/-! ## The output sink (io.Writer) and byte-accounting writers (tag.go) -/

/-- An `io.Writer`.  `cap = none` is an infallible writer
(`strings.Builder`); `cap = some c` accepts bytes while the total stays
within `c` and on overflow stores what fits and reports an error together
with the partial count, the standard `io.Writer` contract exercised by the
repository's capped test writer.  Characters stand for bytes (the inputs
used are ASCII). -/
structure Sink where
  cap : Option Nat
  buf : GoStr
deriving Repr, DecidableEq

/-- One `Write` call: the new sink, the count written, and the error flag. -/
def Sink.write (w : Sink) (s : GoStr) : Sink × Nat × Bool :=
  match w.cap with
  | none => (⟨none, w.buf ++ s⟩, s.length, false)
  | some c =>
    let rem := c - w.buf.length
    if s.length ≤ rem then (⟨some c, w.buf ++ s⟩, s.length, false)
    else (⟨some c, w.buf ++ s.take rem⟩, rem, true)

/-- `writeString`: `io.WriteString` accumulating onto the running total `n`. -/
def writeString (w : Sink) (s : GoStr) (n : Nat) : Sink × Nat × Bool :=
  let r := Sink.write w s
  (r.1, r.2.1 + n, r.2.2)

/-- `html.EscapeString`, one character at a time. -/
def escChar (c : Char) : GoStr :=
  if c = '&' then gs "&amp;"
  else if c = '\'' then gs "&#39;"
  else if c = '<' then gs "&lt;"
  else if c = '>' then gs "&gt;"
  else if c = '"' then gs "&#34;"
  else [c]

def escapeString (s : GoStr) : GoStr := (s.map escChar).flatten

/-- `writeKV`: the bare key when the value is empty, otherwise
`k="escaped(v)"`, threading the running count through each write and
stopping at the first error. -/
def writeKV (w : Sink) (k v : GoStr) : Sink × Nat × Bool :=
  if v = [] then writeString w k 0
  else
    let r1 := writeString w k 0
    if r1.2.2 then r1
    else
      let r2 := writeString r1.1 (gs "=\"") r1.2.1
      if r2.2.2 then r2
      else
        let r3 := writeString r2.1 (escapeString v) r2.2.1
        if r3.2.2 then r3
        else writeString r3.1 (gs "\"") r3.2.1

/-- The loop of `Attributes.WriteTo`: a single space between entries
(written only while `i < length`), stopping at the first write error with
the count accumulated so far. -/
def attributesWriteToLoop (w : Sink) (n : Nat) : List (GoStr × GoStr) → Sink × Nat × Bool
  | [] => (w, n, false)
  | (k, v) :: rest =>
    let r1 := writeKV w k v
    let n1 := n + r1.2.1
    if r1.2.2 then (r1.1, n1, true)
    else if rest = [] then (r1.1, n1, false)
    else
      let r2 := Sink.write r1.1 (gs " ")
      let n2 := n1 + r2.2.1
      if r2.2.2 then (r2.1, n2, true)
      else attributesWriteToLoop r2.1 n2 rest

/-- `Attributes.WriteTo` (iteration in store order). -/
def Attributes.WriteTo (a : Attributes) (w : Sink) : Sink × Nat × Bool :=
  attributesWriteToLoop w 0 a

/-- `attrSpecialSort`, the priority table for attribute ordering. -/
def attrSpecialSort : List (GoStr × Nat) :=
  [(gs "id", 1), (gs "class", 2), (gs "style", 3), (gs "name", 4), (gs "value", 5),
   (gs "src", 6), (gs "alt", 7), (gs "width", 8), (gs "height", 9)]

/-- The comparison used by `sortedKeys`: both special — by priority; special
beats plain; two plain keys — lexicographic. -/
def attrKeyLess (k1 k2 : GoStr) : Bool :=
  match attrSpecialSort.lookup k1, attrSpecialSort.lookup k2 with
  | some v1, some v2 => decide (v1 < v2)
  | some _, none => true
  | none, some _ => false
  | none, none => decide (k1 < k2)

def insertKeyBy (k : GoStr) : List GoStr → List GoStr
  | [] => [k]
  | x :: xs => if attrKeyLess k x then k :: x :: xs else x :: insertKeyBy k xs

/-- `Attributes.sortedKeys` as an insertion sort under `attrKeyLess`. -/
def Attributes.sortedKeys (a : Attributes) : List GoStr :=
  (a.map Prod.fst).foldr insertKeyBy []

/-- The loop of `Attributes.WriteSortedTo` over the sorted keys. -/
def writeSortedLoop (a : Attributes) (w : Sink) (n : Nat) : List GoStr → Sink × Nat × Bool
  | [] => (w, n, false)
  | k :: rest =>
    let r1 := writeKV w k (Attributes.Get a k)
    let n1 := n + r1.2.1
    if r1.2.2 then (r1.1, n1, true)
    else if rest = [] then (r1.1, n1, false)
    else
      let r2 := Sink.write r1.1 (gs " ")
      let n2 := n1 + r2.2.1
      if r2.2.2 then (r2.1, n2, true)
      else writeSortedLoop a r2.1 n2 rest

/-- `Attributes.WriteSortedTo`. -/
def Attributes.WriteSortedTo (a : Attributes) (w : Sink) : Sink × Nat × Bool :=
  writeSortedLoop a w 0 (Attributes.sortedKeys a)

/-- `Attributes.String`: render into a `strings.Builder`, ignoring the
(impossible) error. -/
def Attributes.String (a : Attributes) : GoStr :=
  (Attributes.WriteTo a ⟨none, []⟩).1.buf

/-- `Attributes.SortedString`. -/
def Attributes.SortedString (a : Attributes) : GoStr :=
  (Attributes.WriteSortedTo a ⟨none, []⟩).1.buf

/-! ## Indentation (tag.go) -/

/-- `indent`: two spaces in front of every nonempty line. -/
def indent (s : GoStr) : GoStr :=
  goJoin (gs "\n") ((goSplit '\n' s).map (fun l => if l = [] then l else gs "  " ++ l))

/-- The loop of `Indent`, with explicit fuel for the kernel: every iteration
consumes at least the 11 bytes of a `</textarea>` marker, so `s.length` fuel
is never exhausted and the `fuel = 0` branch is dead.  An opening marker
without a closing marker returns only the remaining text, dropping the
accumulated output, as in the source. -/
def indentLoopGo : Nat → GoStr → GoStr → GoStr
  | fuel, out, s =>
    match strIndex (gs "<textarea") s with
    | none => out ++ indent s
    | some ta =>
      let out2 := out ++ indent (s.take ta)
      let s2 := s.drop ta
      match strIndex (gs "</textarea>") s2 with
      | none => s2
      | some tc =>
        match fuel with
        | 0 => out2 ++ s2
        | fuel' + 1 => indentLoopGo fuel' (out2 ++ s2.take (tc + 11)) (s2.drop (tc + 11))

/-- `Indent`. -/
def Indent (s : GoStr) : GoStr := indentLoopGo s.length [] s

/-! ## writeTag and the render entry points (tag.go) -/

/-- The closing sequence `</` `tag` `>` shared by the tails of `writeTag`. -/
def writeClosing (tag : GoStr) (r : Sink × Nat × Bool) : Sink × Nat × Bool :=
  let r7 := writeString r.1 (gs "</") r.2.1
  if r7.2.2 then r7
  else
    let r8 := writeString r7.1 tag r7.2.1
    if r8.2.2 then r8
    else writeString r8.1 (gs ">") r8.2.1

/-- `writeTag`, the main formatter.  Mirrors the source control flow,
including the inner-content accounting: in the unformatted path the count of
a failed leading `"\n"` write is not added to `n`, while the inner content
and the trailing `"\n"` add their partial counts on failure; in the
formatted path the inner content is buffered (builder writes cannot fail),
optionally indented, and flushed as one write. -/
def writeTag (w : Sink) (tag : GoStr) (attr : Attributes) (innerHtml : Option GoStr)
    (isVoid noSpace format : Bool) : Sink × Nat × Bool :=
  let r1 := writeString w (gs "<") 0
  if r1.2.2 then r1
  else
    let r2 := writeString r1.1 tag r1.2.1
    if r2.2.2 then r2
    else
      let r4 :=
        if attr.length ≠ 0 then
          let r3 := writeString r2.1 (gs " ") r2.2.1
          if r3.2.2 then r3
          else
            let ra := if format then Attributes.WriteSortedTo attr r3.1
                      else Attributes.WriteTo attr r3.1
            (ra.1, r3.2.1 + ra.2.1, ra.2.2)
        else r2
      if r4.2.2 then r4
      else
        let r5 := writeString r4.1 (gs ">") r4.2.1
        if r5.2.2 then r5
        else if isVoid then r5
        else
          match innerHtml with
          | none => writeClosing tag r5
          | some ih =>
            if format then
              let bld := (if noSpace then [] else gs "\n") ++ ih ++
                         (if noSpace then [] else gs "\n")
              let s := if noSpace then bld else Indent bld
              let r6 := writeString r5.1 s r5.2.1
              if r6.2.2 then r6 else writeClosing tag r6
            else
              let ra := if noSpace then (r5.1, 0, false) else writeString r5.1 (gs "\n") 0
              if ra.2.2 then (ra.1, r5.2.1, true)
              else
                let rb := Sink.write ra.1 ih
                let innerN1 := ra.2.1 + rb.2.1
                if rb.2.2 then (rb.1, r5.2.1 + innerN1, true)
                else
                  let rc := if noSpace then (rb.1, innerN1, false)
                            else writeString rb.1 (gs "\n") innerN1
                  if rc.2.2 then (rc.1, r5.2.1 + rc.2.1, true)
                  else writeClosing tag (rc.1, r5.2.1 + rc.2.1, false)

/-- `WriteTag`. -/
def WriteTag (w : Sink) (tag : GoStr) (attr : Attributes) (innerHtml : Option GoStr) :
    Sink × Nat × Bool :=
  writeTag w tag attr innerHtml false false false

/-- `WriteVoidTag`. -/
def WriteVoidTag (w : Sink) (tag : GoStr) (attr : Attributes) : Sink × Nat × Bool :=
  writeTag w tag attr none true false false

/-- `RenderTag`: render to a `strings.Builder` (the unbounded sink, on which
no write ever fails, so the panic-on-error path is unreachable); an empty
`innerHtml` passes a nil `io.WriterTo`. -/
def RenderTag (tag : GoStr) (attr : Attributes) (innerHtml : GoStr) : GoStr :=
  (WriteTag ⟨none, []⟩ tag attr (if innerHtml = [] then none else some innerHtml)).1.buf

/-- `RenderVoidTag`. -/
def RenderVoidTag (tag : GoStr) (attr : Attributes) : GoStr :=
  (WriteVoidTag ⟨none, []⟩ tag attr).1.buf

/-- `WriteImage`: copy the caller's attributes, inject `src` and `alt` into
the copy with the panicking `Set` chain, and write a void `img` tag. -/
def WriteImage (w : Sink) (src alt : GoStr) (attributes : Attributes) :
    Option (Sink × Nat × Bool) :=
  match Attributes.Copy attributes with
  | none => none
  | some a0 =>
    match Attributes.Set a0 (gs "src") src with
    | none => none
    | some a1 =>
      match Attributes.Set a1 (gs "alt") alt with
      | none => none
      | some a2 => some (WriteVoidTag w (gs "img") a2)

/-- `RenderImage`. -/
def RenderImage (src alt : GoStr) (attributes : Attributes) : Option GoStr :=
  (WriteImage ⟨none, []⟩ src alt attributes).map (fun r => r.1.buf)

/-! ## C1: byte accounting of writeTag on a failing sink -/

/-- C1: for `writeTag(w, "a", {"b": "c"}, "d", void=false, noSpace=false,
format=false)` (rendered as `<a b="c">\nd\n</a>`, 16 bytes) and every `k`
from 0 up to 15, a sink accepting exactly the first `k` bytes makes the call
fail and report exactly `k` bytes written — the bytes successfully written
before the failure — including failures mid-attribute-encoding and
mid-content; at capacity 16 the call succeeds with count 16 and the full
rendering. -/
theorem C1_writeTag_partial_count :
    (∀ k, k < 16 →
      (writeTag ⟨some k, []⟩ (gs "a") [(gs "b", gs "c")] (some (gs "d"))
          false false false).2.1 = k ∧
      (writeTag ⟨some k, []⟩ (gs "a") [(gs "b", gs "c")] (some (gs "d"))
          false false false).2.2 = true) ∧
    writeTag ⟨some 16, []⟩ (gs "a") [(gs "b", gs "c")] (some (gs "d")) false false false
      = (⟨some 16, gs "<a b=\"c\">\nd\n</a>"⟩, 16, false) := by
  constructor
  · decide
  · decide

/-! ## C10: empty inner html renders without surrounding newlines -/

/-- Claim-side: the rendered form of one attribute, `k` or `k="escaped(v)"`. -/
def kvString (k v : GoStr) : GoStr :=
  if v = [] then k else k ++ gs "=\"" ++ escapeString v ++ gs "\""

/-- Claim-side: the rendered attribute list, single-space separated. -/
def attrsString : List (GoStr × GoStr) → GoStr
  | [] => []
  | kv :: rest => kvString kv.1 kv.2 ++ (if rest = [] then [] else gs " " ++ attrsString rest)

theorem writeString_unbounded (b s : GoStr) (n : Nat) :
    writeString ⟨none, b⟩ s n = (⟨none, b ++ s⟩, s.length + n, false) := rfl

theorem writeKV_unbounded (b k v : GoStr) :
    writeKV ⟨none, b⟩ k v = (⟨none, b ++ kvString k v⟩, (kvString k v).length, false) := by
  by_cases h : v = []
  · subst h
    simp [writeKV, kvString, writeString, Sink.write]
  · simp only [writeKV, kvString, if_neg h, writeString_unbounded]
    simp [List.append_assoc]
    omega

theorem attributesWriteToLoop_unbounded (l : List (GoStr × GoStr)) :
    ∀ (b : GoStr) (n : Nat),
      attributesWriteToLoop ⟨none, b⟩ n l =
        (⟨none, b ++ attrsString l⟩, n + (attrsString l).length, false) := by
  induction l with
  | nil =>
    intro b n
    simp [attributesWriteToLoop, attrsString]
  | cons kv rest ih =>
    intro b n
    obtain ⟨k, v⟩ := kv
    by_cases h : rest = []
    · subst h
      simp [attributesWriteToLoop, attrsString, writeKV_unbounded]
    · simp only [attributesWriteToLoop, writeKV_unbounded, attrsString, if_neg h]
      simp only [Sink.write]
      rw [ih]
      simp [List.append_assoc]
      omega

theorem writeTo_unbounded (a : Attributes) (b : GoStr) :
    Attributes.WriteTo a ⟨none, b⟩ =
      (⟨none, b ++ attrsString a⟩, (attrsString a).length, false) := by
  have h := attributesWriteToLoop_unbounded a b 0
  simpa [Attributes.WriteTo] using h

theorem sink_write_unbounded (b s : GoStr) :
    Sink.write ⟨none, b⟩ s = (⟨none, b ++ s⟩, s.length, false) := rfl

/-- Claim-side: the opening tag rendered as a string. -/
def openTagString (tag : GoStr) (attr : Attributes) : GoStr :=
  gs "<" ++ tag ++ (if attr = [] then [] else gs " " ++ attrsString attr) ++ gs ">"

/-- C10: the render-to-string entry point treats empty inner html as absent
content: `RenderTag tag attr ""` is the open tag immediately followed by the
closing tag, with no newlines emitted around the content position, while for
every nonempty inner html the same entry point surrounds the content with a
leading and a trailing newline. -/
theorem C10_renderTag_empty (tag : GoStr) (attr : Attributes) (innerHtml : GoStr) :
    RenderTag tag attr [] = openTagString tag attr ++ gs "</" ++ tag ++ gs ">" ∧
    (innerHtml ≠ [] →
      RenderTag tag attr innerHtml =
        openTagString tag attr ++ gs "\n" ++ innerHtml ++ gs "\n" ++
          gs "</" ++ tag ++ gs ">") := by
  constructor
  · by_cases h : attr = []
    · subst h
      simp [RenderTag, WriteTag, writeTag, writeString_unbounded, writeClosing,
        openTagString, List.append_assoc]
    · have hlen : attr.length ≠ 0 := by simpa [List.length_eq_zero] using h
      simp [RenderTag, WriteTag, writeTag, writeString_unbounded, writeClosing,
        writeTo_unbounded, openTagString, hlen, h, List.append_assoc]
  · intro hne
    by_cases h : attr = []
    · subst h
      simp [RenderTag, WriteTag, writeTag, writeString_unbounded, writeClosing,
        sink_write_unbounded, openTagString, hne, List.append_assoc]
    · have hlen : attr.length ≠ 0 := by simpa [List.length_eq_zero] using h
      simp [RenderTag, WriteTag, writeTag, writeString_unbounded, writeClosing,
        sink_write_unbounded, writeTo_unbounded, openTagString, hlen, h, hne,
        List.append_assoc]

theorem C10_renderTag_empty_witness :
    RenderTag (gs "div") [(gs "a", gs "b")] [] = gs "<div a=\"b\"></div>" ∧
    gs "x" ≠ ([] : GoStr) ∧
    RenderTag (gs "div") [(gs "a", gs "b")] (gs "x") = gs "<div a=\"b\">\nx\n</div>" := by
  have h := C10_renderTag_empty (gs "div") [(gs "a", gs "b")] (gs "x")
  exact ⟨h.1.trans (by decide), by decide, (h.2 (by decide)).trans (by decide)⟩

/-! ## C7: the sentinel removal value -/

theorem lookup_none_of_forall_ne (l : Attributes) (k : GoStr)
    (h : ∀ kv ∈ l, kv.1 ≠ k) : l.lookup k = none := by
  induction l with
  | nil => rfl
  | cons kv rest ih =>
    have hne : (k == kv.1) = false := by
      have := h kv (List.mem_cons_self kv rest)
      exact beq_false_of_ne (fun he => this he.symm)
    rw [List.lookup_cons, hne]
    exact ih (fun kv' hm => h kv' (List.mem_cons_of_mem kv hm))

theorem forall_ne_of_lookup_none (l : Attributes) (k : GoStr)
    (h : l.lookup k = none) : ∀ kv ∈ l, kv.1 ≠ k := by
  induction l with
  | nil => intro kv hm; exact absurd hm (List.not_mem_nil kv)
  | cons kv0 rest ih =>
    intro kv hm
    rw [List.lookup_cons] at h
    rcases hbeq : (k == kv0.1) with _ | _
    · simp only [hbeq] at h
      rcases List.mem_cons.mp hm with rfl | hm2
      · intro he
        rw [he, beq_self_eq_true] at hbeq
        exact Bool.noConfusion hbeq
      · exact ih h kv hm2
    · simp only [hbeq] at h
      exact Option.noConfusion h

theorem lookup_filter_ne_self (l : Attributes) (k : GoStr) :
    (l.filter (fun kv => kv.1 ≠ k)).lookup k = none := by
  apply lookup_none_of_forall_ne
  intro kv hm
  have := List.of_mem_filter hm
  simpa using this

theorem filter_ne_eq_self_attrs (l : Attributes) (k : GoStr)
    (h : ∀ kv ∈ l, kv.1 ≠ k) : l.filter (fun kv => kv.1 ≠ k) = l :=
  List.filter_eq_self.mpr (fun kv hm => by simpa using h kv hm)

/-- C7: for every attribute name without spaces, `SetChanged` on the
reserved sentinel `FalseValue` takes the removal path: it returns, without
error, `changed` equal to whether the attribute existed, with the store
after `RemoveAttribute`; on that store `Has` is `false`, no entry carries
the name, and the encoded attribute string equals that of the store with
the name deleted. -/
theorem C7_falseValue_removes (a : Attributes) (name : GoStr) (hsp : ' ' ∉ name) :
    Attributes.SetChanged a name FalseValue =
      some ⟨Attributes.Has a name, false, (Attributes.RemoveAttribute a name).2⟩ ∧
    Attributes.Has (Attributes.RemoveAttribute a name).2 name = false ∧
    (∀ kv ∈ (Attributes.RemoveAttribute a name).2, kv.1 ≠ name) ∧
    Attributes.String (Attributes.RemoveAttribute a name).2 =
      Attributes.String (Attributes.Remove a name) := by
  have hdisp : Attributes.SetChanged a name FalseValue =
      some ⟨(Attributes.RemoveAttribute a name).1, false,
        (Attributes.RemoveAttribute a name).2⟩ := by
    unfold Attributes.SetChanged
    rw [if_neg hsp, if_pos rfl]
  rcases hb : Attributes.Has a name with _ | _
  · -- the attribute was absent: the store is returned untouched
    have hra : Attributes.RemoveAttribute a name = (false, a) := by
      simp [Attributes.RemoveAttribute, hb]
    have hlook : a.lookup name = none := by
      rcases hl : a.lookup name with _ | v
      · rfl
      · rw [Attributes.Has, hl] at hb; exact Bool.noConfusion hb
    have hforall := forall_ne_of_lookup_none a name hlook
    refine ⟨by rw [hdisp, hra], ?_, ?_, ?_⟩
    · rw [hra]; exact hb
    · rw [hra]; exact hforall
    · rw [hra, Attributes.Remove, filter_ne_eq_self_attrs a name hforall]
  · -- the attribute existed: it is filtered out
    have hra : Attributes.RemoveAttribute a name = (true, Attributes.Remove a name) := by
      simp [Attributes.RemoveAttribute, hb]
    refine ⟨by rw [hdisp, hra], ?_, ?_, ?_⟩
    · rw [hra, Attributes.Has, Attributes.Remove, lookup_filter_ne_self]
      rfl
    · rw [hra]
      intro kv hm
      have := List.of_mem_filter hm
      simpa using this
    · rw [hra]

theorem C7_falseValue_removes_witness :
    (' ' ∉ gs "x") ∧
    Attributes.SetChanged [(gs "x", gs "y")] (gs "x") FalseValue =
      some ⟨Attributes.Has [(gs "x", gs "y")] (gs "x"), false,
        (Attributes.RemoveAttribute [(gs "x", gs "y")] (gs "x")).2⟩ :=
  ⟨by decide, (C7_falseValue_removes [(gs "x", gs "y")] (gs "x") (by decide)).1⟩

/-! ## C9: WriteImage renders from a copy and preserves the caller's map -/

theorem attrsSetRaw_append_of_fresh (l : Attributes) (k v : GoStr)
    (h : ∀ kv ∈ l, kv.1 ≠ k) : attrsSetRaw l k v = l ++ [(k, v)] := by
  induction l with
  | nil => rfl
  | cons kv0 rest ih =>
    have hne : kv0.1 ≠ k := h kv0 (List.mem_cons_self kv0 rest)
    show (if kv0.1 = k then (k, v) :: rest else kv0 :: attrsSetRaw rest k v) = _
    rw [if_neg hne, ih (fun kv' hm => h kv' (List.mem_cons_of_mem kv0 hm))]
    rfl

theorem lookup_attrsSetRaw_ne (l : Attributes) (k v k' : GoStr) (h : k' ≠ k) :
    (attrsSetRaw l k v).lookup k' = l.lookup k' := by
  induction l with
  | nil =>
    show List.lookup k' [(k, v)] = none
    rw [List.lookup_cons, beq_false_of_ne h]
    rfl
  | cons kv0 rest ih =>
    show List.lookup k' (if kv0.1 = k then (k, v) :: rest else kv0 :: attrsSetRaw rest k v) = _
    by_cases he : kv0.1 = k
    · rw [if_pos he, List.lookup_cons, List.lookup_cons, beq_false_of_ne h,
        he, beq_false_of_ne h]
    · rw [if_neg he, List.lookup_cons, List.lookup_cons, ih]

theorem mergeLoop_fresh (rest : Attributes) :
    ∀ acc : Attributes, ((acc ++ rest).map Prod.fst).Nodup →
      Attributes.mergeLoop acc rest = some (acc ++ rest) := by
  induction rest with
  | nil =>
    intro acc _
    simp [Attributes.mergeLoop]
  | cons kv rest' ih =>
    intro acc h
    obtain ⟨k, v⟩ := kv
    have hk : ∀ kv' ∈ acc, kv'.1 ≠ k := by
      intro kv' hm he
      rw [List.map_append, List.nodup_append] at h
      exact h.2.2 (List.mem_map_of_mem Prod.fst hm) (by simp [he])
    have hlook : acc.lookup k = none := lookup_none_of_forall_ne acc k hk
    have hstep : Attributes.mergeLoop acc ((k, v) :: rest') =
        Attributes.mergeLoop (attrsSetRaw acc k v) rest' := by
      show (if k = gs "style" then _ else _) = _
      by_cases h1 : k = gs "style"
      · rw [if_pos h1]
        subst h1
        simp only [hlook]
      · rw [if_neg h1]
        by_cases h2 : k = gs "class"
        · rw [if_pos h2]
          subst h2
          simp only [hlook]
        · rw [if_neg h2]
    rw [hstep, attrsSetRaw_append_of_fresh acc k v hk]
    have hnd2 : (((acc ++ [(k, v)]) ++ rest').map Prod.fst).Nodup := by
      rw [List.append_assoc]
      exact h
    rw [ih (acc ++ [(k, v)]) hnd2, List.append_assoc]
    rfl

/-- `Attributes.Set` on a plain attribute name (no special dispatch, not the
sentinel): a raw map assignment. -/
theorem set_plain_attr (x : Attributes) (name v : GoStr)
    (h1 : ' ' ∉ name) (h2 : v ≠ FalseValue) (h3 : name ≠ gs "style")
    (h4 : name ≠ gs "id") (h5 : name ≠ gs "class")
    (h6 : ¬ (hasPre (gs "data-") name = true)) :
    Attributes.Set x name v = some (attrsSetRaw x name v) := by
  unfold Attributes.Set Attributes.SetChanged
  rw [if_neg h1, if_neg h2, if_neg h3, if_neg h4, if_neg h5, if_neg h6]
  rfl

/-- C9: `WriteImage` builds its attribute store by copying the caller's
store and injecting `src` and `alt` into the copy: under unique keys the
copy equals the original, the rendered void tag uses the original entries
extended with `src` and `alt`, and the lookup of every other key in the
rendered store is exactly its lookup in the caller's store, which the call
never mutates. -/
theorem C9_writeImage_frame (w : Sink) (a : Attributes) (src alt : GoStr)
    (hnd : (a.map Prod.fst).Nodup) (hsrc : src ≠ FalseValue) (halt : alt ≠ FalseValue) :
    Attributes.Copy a = some a ∧
    WriteImage w src alt a =
      some (WriteVoidTag w (gs "img")
        (attrsSetRaw (attrsSetRaw a (gs "src") src) (gs "alt") alt)) ∧
    ∀ k, k ≠ gs "src" → k ≠ gs "alt" →
      (attrsSetRaw (attrsSetRaw a (gs "src") src) (gs "alt") alt).lookup k = a.lookup k := by
  have hcopy : Attributes.Copy a = some a := by
    have h := mergeLoop_fresh a [] (by simpa using hnd)
    simpa [Attributes.Copy, Attributes.Merge] using h
  refine ⟨hcopy, ?_, ?_⟩
  · have hset1 := set_plain_attr a (gs "src") src (by decide) hsrc (by decide)
      (by decide) (by decide) (by decide)
    have hset2 := set_plain_attr (attrsSetRaw a (gs "src") src) (gs "alt") alt
      (by decide) halt (by decide) (by decide) (by decide) (by decide)
    simp only [WriteImage, hcopy, hset1, hset2]
  · intro k hk1 hk2
    rw [lookup_attrsSetRaw_ne _ _ _ _ hk2, lookup_attrsSetRaw_ne _ _ _ _ hk1]

theorem C9_writeImage_frame_witness :
    (([(gs "id", gs "5")] : Attributes).map Prod.fst).Nodup ∧
    gs "s" ≠ FalseValue ∧ gs "t" ≠ FalseValue ∧
    WriteImage ⟨none, []⟩ (gs "s") (gs "t") [(gs "id", gs "5")] =
      some (WriteVoidTag ⟨none, []⟩ (gs "img")
        (attrsSetRaw (attrsSetRaw [(gs "id", gs "5")] (gs "src") (gs "s"))
          (gs "alt") (gs "t"))) := by
  refine ⟨by decide, by decide, by decide, ?_⟩
  exact (C9_writeImage_frame ⟨none, []⟩ [(gs "id", gs "5")] (gs "s") (gs "t")
    (by decide) (by decide) (by decide)).2.1

/-! ## C5: indentation outside textarea regions -/

/-- Splitting the indented text recovers the per-line transformation: every
nonempty line gains a two-space prefix; empty lines stay empty. -/
theorem indent_lines (s : GoStr) :
    goSplit '\n' (indent s) =
      (goSplit '\n' s).map (fun l => if l = [] then l else gs "  " ++ l) := by
  unfold indent goJoin
  show List.splitOn '\n' _ = _
  apply List.splitOn_intercalate
  · intro l hl
    obtain ⟨p, hp, rfl⟩ := List.mem_map.mp hl
    have hnp : '\n' ∉ p := (splitOn_part_subset p hp).1
    by_cases he : p = []
    · rw [if_pos he]
      exact hnp
    · rw [if_neg he]
      intro hmem
      rcases List.mem_append.mp hmem with h1 | h2
      · exact absurd h1 (by decide)
      · exact hnp h2
  · have := List.splitOnP_ne_nil (· == '\n') s
    simpa using this

/-- Whether the region-skipping scan of `Indent` never meets an unmatched
opening marker: `false` exactly when some `<textarea` reached by the scan
has no `</textarea>` after it.  Same fuel discipline as `indentLoopGo`. -/
def wfTAGo : Nat → GoStr → Bool
  | fuel, s =>
    match strIndex (gs "<textarea") s with
    | none => true
    | some ta =>
      match strIndex (gs "</textarea>") (s.drop ta) with
      | none => false
      | some tc =>
        match fuel with
        | 0 => true
        | fuel' + 1 => wfTAGo fuel' ((s.drop ta).drop (tc + 11))

def wfTA (s : GoStr) : Bool := wfTAGo s.length s

/-- A found pattern fits inside the string. -/
theorem strIndex_bound {pat : GoStr} :
    ∀ {s : GoStr} {i : Nat}, strIndex pat s = some i → i + pat.length ≤ s.length := by
  intro s
  induction s with
  | nil =>
    intro i h
    simp only [strIndex] at h
    by_cases hp : pat.isPrefixOf ([] : GoStr)
    · rw [if_pos hp] at h
      injection h with h0
      subst h0
      have hp2 : pat = [] := List.prefix_nil.mp (List.isPrefixOf_iff_prefix.mp hp)
      simp [hp2]
    · rw [if_neg hp] at h
      exact Option.noConfusion h
  | cons c rest ih =>
    intro i h
    simp only [strIndex] at h
    by_cases hp : pat.isPrefixOf (c :: rest)
    · rw [if_pos hp] at h
      injection h with h0
      subst h0
      have := List.IsPrefix.length_le (List.isPrefixOf_iff_prefix.mp hp)
      simpa using this
    · rw [if_neg hp] at h
      obtain ⟨j, hj, hji⟩ := Option.map_eq_some'.mp h
      have := ih hj
      simp only [List.length_cons]
      omega

/-- One loop iteration consumes at least the 11 bytes of the closing
marker. -/
theorem indent_rest_bound {s : GoStr} {i j : Nat}
    (hopen : strIndex (gs "<textarea") s = some i)
    (hclose : strIndex (gs "</textarea>") (s.drop i) = some j) :
    ((s.drop i).drop (j + 11)).length + 11 ≤ s.length := by
  have h1 := strIndex_bound hclose
  have h2 : (gs "</textarea>").length = 11 := by decide
  rw [h2] at h1
  have h3 : (s.drop i).length = s.length - i := List.length_drop i s
  rw [List.length_drop, List.length_drop]
  omega

/-- The let-free unfolding of `indentLoopGo`. -/
theorem indentLoopGo_eq (fuel : Nat) (out s : GoStr) :
    indentLoopGo fuel out s =
      match strIndex (gs "<textarea") s with
      | none => out ++ indent s
      | some ta =>
        match strIndex (gs "</textarea>") (s.drop ta) with
        | none => s.drop ta
        | some tc =>
          match fuel with
          | 0 => (out ++ indent (s.take ta)) ++ s.drop ta
          | fuel' + 1 =>
            indentLoopGo fuel' ((out ++ indent (s.take ta)) ++ (s.drop ta).take (tc + 11))
              ((s.drop ta).drop (tc + 11)) := by
  rw [indentLoopGo]

theorem wfTAGo_none {s : GoStr} (f : Nat)
    (h : strIndex (gs "<textarea") s = none) : wfTAGo f s = true := by
  rw [wfTAGo]
  simp only [h]

theorem wfTAGo_nil (f : Nat) : wfTAGo f [] = true :=
  wfTAGo_none f (by decide)

theorem wfTAGo_noclose {s : GoStr} {i : Nat} (f : Nat)
    (hop : strIndex (gs "<textarea") s = some i)
    (hcl : strIndex (gs "</textarea>") (s.drop i) = none) : wfTAGo f s = false := by
  rw [wfTAGo]
  simp only [hop, hcl]

theorem wfTAGo_step {s : GoStr} {i j : Nat} (f : Nat)
    (hop : strIndex (gs "<textarea") s = some i)
    (hcl : strIndex (gs "</textarea>") (s.drop i) = some j) :
    wfTAGo (f + 1) s = wfTAGo f ((s.drop i).drop (j + 11)) := by
  rw [wfTAGo]
  simp only [hop, hcl]

theorem indentLoopGo_none {s : GoStr} (f : Nat) (out : GoStr)
    (h : strIndex (gs "<textarea") s = none) :
    indentLoopGo f out s = out ++ indent s := by
  rw [indentLoopGo_eq]
  simp only [h]

theorem indentLoopGo_nil (f : Nat) (out : GoStr) :
    indentLoopGo f out [] = out ++ indent [] :=
  indentLoopGo_none f out (by decide)

theorem indentLoopGo_noclose {s : GoStr} {i : Nat} (f : Nat) (out : GoStr)
    (hop : strIndex (gs "<textarea") s = some i)
    (hcl : strIndex (gs "</textarea>") (s.drop i) = none) :
    indentLoopGo f out s = s.drop i := by
  rw [indentLoopGo_eq]
  simp only [hop, hcl]

theorem indentLoopGo_step {s : GoStr} {i j : Nat} (f : Nat) (out : GoStr)
    (hop : strIndex (gs "<textarea") s = some i)
    (hcl : strIndex (gs "</textarea>") (s.drop i) = some j) :
    indentLoopGo (f + 1) out s =
      indentLoopGo f ((out ++ indent (s.take i)) ++ (s.drop i).take (j + 11))
        ((s.drop i).drop (j + 11)) := by
  rw [indentLoopGo_eq]
  simp only [hop, hcl]

/-- The result of `wfTAGo` does not depend on the fuel once the fuel covers
the string. -/
theorem wfTAGo_fuel : ∀ (f1 f2 : Nat) (s : GoStr), s.length ≤ f1 → s.length ≤ f2 →
    wfTAGo f1 s = wfTAGo f2 s := by
  intro f1
  induction f1 with
  | zero =>
    intro f2 s h1 _
    have hs : s = [] := List.length_eq_zero.mp (Nat.le_zero.mp h1)
    subst hs
    rw [wfTAGo_nil, wfTAGo_nil]
  | succ f ih =>
    intro f2 s h1 h2
    rcases hop : strIndex (gs "<textarea") s with _ | i
    · rw [wfTAGo_none _ hop, wfTAGo_none _ hop]
    · rcases hcl : strIndex (gs "</textarea>") (s.drop i) with _ | j
      · rw [wfTAGo_noclose _ hop hcl, wfTAGo_noclose _ hop hcl]
      · have hb := indent_rest_bound hop hcl
        obtain ⟨g, hg⟩ := Nat.exists_eq_succ_of_ne_zero (show f2 ≠ 0 by omega)
        subst hg
        rw [wfTAGo_step f hop hcl, wfTAGo_step g hop hcl]
        exact ih g _ (by omega) (by omega)

/-- The result of `indentLoopGo` does not depend on the fuel once the fuel
covers the string. -/
theorem indentLoopGo_fuel : ∀ (f1 f2 : Nat) (out s : GoStr),
    s.length ≤ f1 → s.length ≤ f2 → indentLoopGo f1 out s = indentLoopGo f2 out s := by
  intro f1
  induction f1 with
  | zero =>
    intro f2 out s h1 _
    have hs : s = [] := List.length_eq_zero.mp (Nat.le_zero.mp h1)
    subst hs
    rw [indentLoopGo_nil, indentLoopGo_nil]
  | succ f ih =>
    intro f2 out s h1 h2
    rcases hop : strIndex (gs "<textarea") s with _ | i
    · rw [indentLoopGo_none _ _ hop, indentLoopGo_none _ _ hop]
    · rcases hcl : strIndex (gs "</textarea>") (s.drop i) with _ | j
      · rw [indentLoopGo_noclose _ _ hop hcl, indentLoopGo_noclose _ _ hop hcl]
      · have hb := indent_rest_bound hop hcl
        obtain ⟨g, hg⟩ := Nat.exists_eq_succ_of_ne_zero (show f2 ≠ 0 by omega)
        subst hg
        rw [indentLoopGo_step f _ hop hcl, indentLoopGo_step g _ hop hcl]
        exact ih g _ _ (by omega) (by omega)

/-- While the scan meets no unmatched opener, the accumulated output is a
prefix that factors out of the loop. -/
theorem indentLoopGo_out : ∀ (f : Nat) (out s : GoStr),
    s.length ≤ f → wfTAGo f s = true →
    indentLoopGo f out s = out ++ indentLoopGo f [] s := by
  intro f
  induction f with
  | zero =>
    intro out s h1 _
    have hs : s = [] := List.length_eq_zero.mp (Nat.le_zero.mp h1)
    subst hs
    rw [indentLoopGo_nil, indentLoopGo_nil]
    simp
  | succ f ih =>
    intro out s h1 hwf
    rcases hop : strIndex (gs "<textarea") s with _ | i
    · rw [indentLoopGo_none _ _ hop, indentLoopGo_none _ _ hop]
      simp
    · rcases hcl : strIndex (gs "</textarea>") (s.drop i) with _ | j
      · rw [wfTAGo_noclose (f + 1) hop hcl] at hwf
        exact Bool.noConfusion hwf
      · have hb := indent_rest_bound hop hcl
        rw [wfTAGo_step f hop hcl] at hwf
        rw [indentLoopGo_step f _ hop hcl, indentLoopGo_step f _ hop hcl]
        rw [ih ((out ++ indent (s.take i)) ++ (s.drop i).take (j + 11)) _ (by omega) hwf,
          ih (([] ++ indent (s.take i)) ++ (s.drop i).take (j + 11)) _ (by omega) hwf]
        simp [List.append_assoc]

/-- Once the scan meets an unmatched opener, the accumulated output is
discarded: the loop result does not depend on it. -/
theorem indentLoopGo_discard : ∀ (f : Nat) (out s : GoStr),
    s.length ≤ f → wfTAGo f s = false →
    indentLoopGo f out s = indentLoopGo f [] s := by
  intro f
  induction f with
  | zero =>
    intro out s h1 hwf
    have hs : s = [] := List.length_eq_zero.mp (Nat.le_zero.mp h1)
    subst hs
    rw [wfTAGo_nil] at hwf
    exact Bool.noConfusion hwf
  | succ f ih =>
    intro out s h1 hwf
    rcases hop : strIndex (gs "<textarea") s with _ | i
    · rw [wfTAGo_none (f + 1) hop] at hwf
      exact Bool.noConfusion hwf
    · rcases hcl : strIndex (gs "</textarea>") (s.drop i) with _ | j
      · rw [indentLoopGo_noclose _ _ hop hcl, indentLoopGo_noclose _ _ hop hcl]
      · have hb := indent_rest_bound hop hcl
        rw [wfTAGo_step f hop hcl] at hwf
        rw [indentLoopGo_step f _ hop hcl, indentLoopGo_step f _ hop hcl]
        rw [ih ((out ++ indent (s.take i)) ++ (s.drop i).take (j + 11)) _ (by omega) hwf,
          ih (([] ++ indent (s.take i)) ++ (s.drop i).take (j + 11)) _ (by omega) hwf]

/-- C5 (amended): the indentation pass, characterized on every input.
(1) `indent` prefixes every nonempty line with two spaces, leaving empty
lines empty; (2) without an opening `<textarea` marker, `Indent` is exactly
`indent`; (3) when the first opening marker has no closing marker, `Indent`
returns only the remaining text from the marker on, discarding the text
before it; (4) when the first opening marker is matched, the region up to
and including the closing marker passes through unindented between the
indented text before it and the recursively processed remainder — unless
the remainder's scan meets an unmatched opener, in which case the whole
result collapses to `Indent` of the remainder (whose accumulated prefix is
discarded the same way).  Cases (2)–(4) are exhaustive, so any number of
textarea regions is covered by iterating (4) and finishing with (2) or
(3). -/
theorem C5_indent_textarea (s : GoStr) :
    (goSplit '\n' (indent s) =
      (goSplit '\n' s).map (fun l => if l = [] then l else gs "  " ++ l)) ∧
    (strIndex (gs "<textarea") s = none → Indent s = indent s) ∧
    (∀ i, strIndex (gs "<textarea") s = some i →
      strIndex (gs "</textarea>") (s.drop i) = none → Indent s = s.drop i) ∧
    (∀ i j, strIndex (gs "<textarea") s = some i →
      strIndex (gs "</textarea>") (s.drop i) = some j →
      (wfTA ((s.drop i).drop (j + 11)) = true →
        Indent s = indent (s.take i) ++ (s.drop i).take (j + 11) ++
          Indent ((s.drop i).drop (j + 11))) ∧
      (wfTA ((s.drop i).drop (j + 11)) = false →
        Indent s = Indent ((s.drop i).drop (j + 11)))) := by
  refine ⟨indent_lines s, ?_, ?_, ?_⟩
  · intro h
    rw [Indent, indentLoopGo_none _ _ h]
    simp
  · intro i hopen hclose
    rw [Indent, indentLoopGo_noclose _ _ hopen hclose]
  · intro i j hopen hclose
    have hb := indent_rest_bound hopen hclose
    obtain ⟨m, hm⟩ := Nat.exists_eq_succ_of_ne_zero (show s.length ≠ 0 by omega)
    have hstep : Indent s =
        indentLoopGo m (([] ++ indent (s.take i)) ++ (s.drop i).take (j + 11))
          ((s.drop i).drop (j + 11)) := by
      rw [Indent, hm, indentLoopGo_step m _ hopen hclose]
    constructor
    · intro hwf
      have hwfm : wfTAGo m ((s.drop i).drop (j + 11)) = true := by
        rw [wfTAGo_fuel m ((s.drop i).drop (j + 11)).length _ (by omega) (le_refl _)]
        exact hwf
      rw [hstep, indentLoopGo_out m _ _ (by omega) hwfm,
        indentLoopGo_fuel m ((s.drop i).drop (j + 11)).length [] _ (by omega) (le_refl _)]
      show _ = _ ++ _ ++ Indent _
      rw [Indent]
      simp [List.append_assoc]
    · intro hwf
      have hwfm : wfTAGo m ((s.drop i).drop (j + 11)) = false := by
        rw [wfTAGo_fuel m ((s.drop i).drop (j + 11)).length _ (by omega) (le_refl _)]
        exact hwf
      rw [hstep, indentLoopGo_discard m _ _ (by omega) hwfm]
      rw [Indent]
      exact indentLoopGo_fuel m ((s.drop i).drop (j + 11)).length [] _ (by omega) (le_refl _)

theorem C5_indent_textarea_witness :
    (strIndex (gs "<textarea") (gs "p\nq") = none ∧
      Indent (gs "p\nq") = indent (gs "p\nq")) ∧
    Indent (gs "x\n<textarea") = gs "<textarea" ∧
    Indent (gs "x\n<textarea>a</textarea>\ny") = gs "  x\n<textarea>a</textarea>\n  y" ∧
    Indent (gs "x\n<textarea>a</textarea><textarea") = gs "<textarea" := by
  refine ⟨⟨by decide, (C5_indent_textarea (gs "p\nq")).2.1 (by decide)⟩, ?_, ?_, ?_⟩
  · exact ((C5_indent_textarea (gs "x\n<textarea")).2.2.1 2
      (by decide) (by decide)).trans (by decide)
  · exact (((C5_indent_textarea (gs "x\n<textarea>a</textarea>\ny")).2.2.2 2 11
      (by decide) (by decide)).1 (by decide)).trans (by decide)
  · exact (((C5_indent_textarea (gs "x\n<textarea>a</textarea><textarea")).2.2.2 2 11
      (by decide) (by decide)).2 (by decide)).trans (by decide)

/-- C5 counterexample: the unmatched-marker fallback discards the already
indented text before the marker instead of keeping it in the output, and an
empty line outside any textarea region is not prefixed with two spaces. -/
theorem C5_counterexample :
    Indent (gs "a\n<textarea") = gs "<textarea" ∧
    (gs "<textarea" ≠ indent (gs "a\n") ++ gs "<textarea") ∧
    Indent (gs "a\n\nb") = gs "  a\n\n  b" := by
  refine ⟨by decide, by decide, by decide⟩
